import Mathlib

/-!
# Verification of the wayout-solver GF(2) linear-algebra core

This file gives a shallow embedding, in Lean 4, of the GF(2) linear-algebra
core of the `wayout-solver` repository (`src/bit.rs`, `src/matrix.rs`,
`src/equations.rs`) and proves/refutes the frozen claims about it.

Modelling conventions:
* Rust `Bit` becomes the two-constructor inductive `Bit`; `+` is XOR and `*`
  is AND, exactly as in `src/bit.rs`.
* Rust `Matrix { rows, cols, data: Vec<Vec<Bit>> }` becomes a structure with
  `data : List (List Bit)`; entries are read with `List.getD`, with `Bit.Off`
  as the out-of-bounds default (the Rust code only ever indexes in bounds on
  the valid matrices the claims quantify over; positions are kept in bounds
  by the `BoundedPosition` stepping discipline).
* The cursor loops of `Matrix::eliminate` and `Matrix::non_leading_columns`
  are written with an explicit fuel argument so they compute by `rfl`/`decide`.
  The fuel bounds `rows + cols` (resp. `cols`) are provably sufficient because
  the cursor strictly advances right or down on every iteration (this is
  exactly claim C9, proved below as fuel-irrelevance above the bound).
* `HashSet<usize>` values are represented by their (deterministic) sorted
  element lists, and `HashMap<K,V>` values by association lists where a later
  insert for the same key overwrites the earlier one; the Rust program only
  observes these containers through order-insensitive iteration (XOR-sums,
  set membership) or after explicitly sorting, so the representations agree
  with the source extensionally.
* `Assignment(HashMap<Var, Bit>)` is represented canonically: an association
  list `AV` kept strictly sorted by key by `avInsert`, so that equality of the
  canonical lists coincides with equality of the underlying finite maps.
* `valuation.get(term).unwrap()` in `Equations::backfeed` panics when `term`
  is unassigned; the embedding totalises the lookup with default `Bit.Off`.
  All verified usages assign every term, except where a claim itself is about
  the missing-variable behaviour (none is).
-/

namespace Wayout

/-! ## Bit (`src/bit.rs`) -/

inductive Bit where
  | Off : Bit
  | On : Bit
deriving DecidableEq, Repr

namespace Bit

/-- `impl Add<Bit> for Bit`: XOR truth table. -/
def add : Bit → Bit → Bit
  | Bit.Off, Bit.Off => Bit.Off
  | Bit.On, Bit.On => Bit.Off
  | Bit.Off, Bit.On => Bit.On
  | Bit.On, Bit.Off => Bit.On

/-- `impl Mul<Bit> for Bit`: On only if both On. -/
def mul : Bit → Bit → Bit
  | Bit.On, Bit.On => Bit.On
  | _, _ => Bit.Off

instance : Add Bit := ⟨Bit.add⟩
instance : Mul Bit := ⟨Bit.mul⟩
instance : Zero Bit := ⟨Bit.Off⟩

theorem add_def (a b : Bit) : a + b = Bit.add a b := rfl

theorem mul_def (a b : Bit) : a * b = Bit.mul a b := rfl

instance : AddCommMonoid Bit where
  add_assoc := by intro a b c; cases a <;> cases b <;> cases c <;> rfl
  zero_add := by intro a; cases a <;> rfl
  add_zero := by intro a; cases a <;> rfl
  add_comm := by intro a b; cases a <;> cases b <;> rfl
  nsmul := nsmulRec

theorem add_self (a : Bit) : a + a = Bit.Off := by cases a <;> rfl

theorem add_add_cancel (a b : Bit) : a + b + b = a := by cases a <;> cases b <;> rfl

theorem add_mul (a b c : Bit) : (a + b) * c = a * c + b * c := by
  cases a <;> cases b <;> cases c <;> rfl

theorem off_mul (a : Bit) : Bit.Off * a = Bit.Off := by cases a <;> rfl

theorem on_mul (a : Bit) : Bit.On * a = a := by cases a <;> rfl

theorem zero_def : (0 : Bit) = Bit.Off := rfl

end Bit

/-! ## Canonical assignment maps (model of `Assignment(HashMap<Var, Bit>)`) -/

/-- Canonical representation of a `HashMap<usize, Bit>`: an association list
kept strictly sorted by key by `avInsert`, so list equality is map equality. -/
abbrev AV : Type := List (Nat × Bit)

/-- Insert-or-overwrite, keeping the list strictly sorted by key.  This is the
map-insert of `HashMap::insert` on the canonical representation. -/
def avInsert : AV → Nat → Bit → AV
  | [], k, v => [(k, v)]
  | (k', v') :: rest, k, v =>
    if k < k' then (k, v) :: (k', v') :: rest
    else if k = k' then (k, v) :: rest
    else (k', v') :: avInsert rest k v

/-- Map lookup (`HashMap::get`). -/
def avLookup : AV → Nat → Option Bit
  | [], _ => none
  | (k, v) :: rest, x => if x = k then some v else avLookup rest x

/-- Totalised lookup with default `Bit.Off`; stands in for
`valuation.get(term).unwrap()` at call sites where the key is present. -/
def avLookupD (a : AV) (x : Nat) : Bit := (avLookup a x).getD Bit.Off

/-! ## Matrix (`src/matrix.rs`) -/

/-- `Matrix { rows, cols, data }` from `src/matrix.rs`. -/
structure Matrix where
  rows : Nat
  cols : Nat
  data : List (List Bit)
deriving DecidableEq, Repr

/-- The well-formedness invariant established by `Matrix::new`:
`rows` and `cols` non-zero, `data` has `rows` entries, each of length `cols`. -/
def Matrix.Valid (m : Matrix) : Prop :=
  0 < m.rows ∧ 0 < m.cols ∧ m.data.length = m.rows ∧ ∀ row ∈ m.data, row.length = m.cols

instance (m : Matrix) : Decidable m.Valid := by unfold Matrix.Valid; infer_instance

/-- Row access `self.data[r]` (defaulting to `[]` out of bounds). -/
def Matrix.row (m : Matrix) (r : Nat) : List Bit := m.data.getD r []

/-- Entry access `self.data[r][c]` (`Matrix::get_at`), defaulting to `Off`. -/
def Matrix.entry (m : Matrix) (r c : Nat) : Bit := (m.row r).getD c Bit.Off

/-- `get_leading_column` / `first_active_column_since(row, 0)`: index of the
first `On` entry of a row, `none` for a zero row. -/
def get_leading_column : List Bit → Option Nat
  | [] => none
  | Bit.On :: _ => some 0
  | Bit.Off :: rest => (get_leading_column rest).map (· + 1)

/-- The sort key used by `sort_rows_by_leading_column`: the leading column,
with the sentinel `cols` for zero rows. -/
def sortKey (cols : Nat) (row : List Bit) : Nat :=
  (get_leading_column row).getD cols

/-- Insertion into a key-sorted row list (helper for `sortRows`). -/
def insertRow (cols : Nat) (r : List Bit) : List (List Bit) → List (List Bit)
  | [] => [r]
  | s :: rest =>
    if sortKey cols r ≤ sortKey cols s then r :: s :: rest
    else s :: insertRow cols r rest

/-- Deterministic sort by `sortKey`, modelling
`sort_unstable_by_key(|row| leading-column-or-cols)`.  The Rust sort is an
unspecified-tie-order comparison sort; this insertion sort realises the same
specification (a permutation ordered by the key), which is all the verified
claims depend on. -/
def sortRows (cols : Nat) : List (List Bit) → List (List Bit)
  | [] => []
  | r :: rest => insertRow cols r (sortRows cols rest)

/-- `Matrix::sort_rows_by_leading_column`. -/
def Matrix.sortMatrix (m : Matrix) : Matrix :=
  { m with data := sortRows m.cols m.data }

/-- The element-wise XOR `self.data[target][col] += row[col]` for
`col in 0..cols`, where `row` is the pre-cloned source row. -/
def addRows (cols : Nat) (tgt src : List Bit) : List Bit :=
  (List.range cols).map (fun c => tgt.getD c Bit.Off + src.getD c Bit.Off)

/-- `Matrix::elementary_add_row_to`: the source row is cloned before the
element-wise XOR into the target row. -/
def Matrix.elementary_add_row_to (m : Matrix) (source_row target_row : Nat) : Matrix :=
  { m with
    data := m.data.set target_row
      (addRows m.cols (m.data.getD target_row []) (m.data.getD source_row [])) }

/-- One step of the `decimate_column_with_row` loop body. -/
def decimateStep (src col : Nat) (acc : Matrix) (r : Nat) : Matrix :=
  if r = src then acc
  else if acc.entry r col = Bit.On then acc.elementary_add_row_to src r
  else acc

/-- `Matrix::decimate_column_with_row`: adds the source row onto every other
row whose `col` bit is `On`. -/
def Matrix.decimate_column_with_row (m : Matrix) (source_row column : Nat) : Matrix :=
  (List.range m.rows).foldl (decimateStep source_row column) m

/-- The `loop` body of `Matrix::eliminate`, with an explicit fuel so that the
definition computes; the cursor `(row, col)` strictly advances right or down
each iteration, so fuel `rows + cols` always suffices (claim C9). -/
def elimLoopF : Nat → Matrix → Nat → Nat → Matrix
  | 0, m, _, _ => m
  | fuel + 1, m, row, col =>
    match m.entry row col with
    | Bit.Off =>
      if col + 1 = m.cols then m else elimLoopF fuel m row (col + 1)
    | Bit.On =>
      let m' := (m.decimate_column_with_row row col).sortMatrix
      if row + 1 = m.rows then m' else elimLoopF fuel m' (row + 1) col

/-- `Matrix::eliminate`: sort, then run the cursor loop from `(0, 0)`. -/
def Matrix.eliminate (m : Matrix) : Matrix :=
  elimLoopF (m.rows + m.cols) m.sortMatrix 0 0

/-- `Matrix::is_row_zero`. -/
def Matrix.is_row_zero (m : Matrix) (r : Nat) : Bool :=
  (m.row r).all (fun b => b = Bit.Off)

/-- `Matrix::augment_column`, returning the success flag together with the
(possibly unchanged) matrix. -/
def Matrix.augment_column (m : Matrix) (col : List Bit) : Bool × Matrix :=
  if col.length ≠ m.rows then (false, m)
  else (true, { rows := m.rows, cols := m.cols + 1,
                data := m.data.zipWith (fun row b => row ++ [b]) col })

/-- The `loop` body of `Matrix::non_leading_columns`, with fuel; the cursor
column strictly advances every iteration, so fuel `cols` suffices. -/
def nlcF : Nat → Matrix → Nat → Nat → List Nat → List Nat
  | 0, _, _, _, acc => acc
  | fuel + 1, m, row, col, acc =>
    match m.entry row col with
    | Bit.Off =>
      let acc' := acc ++ [col]
      if col + 1 = m.cols then acc' else nlcF fuel m row (col + 1) acc'
    | Bit.On =>
      if row + 1 = m.rows then acc
      else if col + 1 = m.cols then acc
      else nlcF fuel m (row + 1) (col + 1) acc

/-- `Matrix::non_leading_columns`. -/
def Matrix.non_leading_columns (m : Matrix) : List Nat :=
  nlcF m.cols m 0 0 []

/-! ## Equations (`src/equations.rs`) -/

/-- `Equations { free_vars, eqns }`.  `free_vars` models the `HashSet<Var>` by
its sorted element list; `eqns` models the `HashMap<Var, (HashSet<Var>, Bit)>`
by an association list in insertion order (later entries overwrite earlier
ones wherever the map is read). -/
structure Equations where
  free_vars : List Nat
  eqns : List (Nat × (List Nat × Bit))
deriving DecidableEq, Repr

/-- The `for row in 0..matrix.rows` loop of `Equations::new`, with fuel
`m.rows - row`; stops at the first zero row, skips rows whose leading column
is the constant column. -/
def buildEqnsF : Nat → Matrix → List Nat → Nat → List (Nat × (List Nat × Bit))
  | 0, _, _, _ => []
  | fuel + 1, m, fv, row =>
    if m.is_row_zero row then []
    else
      let params := fv.filter (fun c => m.entry row c = Bit.On)
      let constant_term := m.entry row (m.cols - 1)
      match get_leading_column (m.row row) with
      | none => []
      | some leading_col =>
        (if leading_col ≠ m.cols - 1 then [(leading_col, (params, constant_term))] else [])
          ++ buildEqnsF fuel m fv (row + 1)

/-- `Equations::new`. -/
def Equations.new (matrix : Matrix) : Equations :=
  let free_vars := matrix.non_leading_columns.filter (fun c => c ≠ matrix.cols - 1)
  { free_vars := free_vars
    eqns := buildEqnsF matrix.rows matrix free_vars 0 }

/-- `Equations::backfeed`: compute each dependent variable from the valuation
of the free variables, then merge the valuation in (overwriting). -/
def Equations.backfeed (e : Equations) (assignment : AV) : AV :=
  let results := e.eqns.foldl
    (fun res p =>
      avInsert res p.1
        ((p.2.1.foldl (fun value term => value + avLookupD assignment term) Bit.Off) + p.2.2))
    []
  assignment.foldl (fun res p => avInsert res p.1 p.2) results

/-- `enumerate_all_assignments`, on the sorted element list of the var set:
seed the two assignments of the first variable, then double the list once per
remaining variable. -/
def enumerate_all_assignments : List Nat → List AV
  | [] => []
  | a :: rest =>
    rest.foldl
      (fun assignments var =>
        assignments.flatMap (fun a => [avInsert a var Bit.Off, avInsert a var Bit.On]))
      [[(a, Bit.Off)], [(a, Bit.On)]]

/-- `Equations::enumerate_all_results`. -/
def Equations.enumerate_all_results (e : Equations) : List AV :=
  let assignments := enumerate_all_assignments e.free_vars
  if 0 < assignments.length then assignments.map e.backfeed
  else [e.backfeed []]

/-! ## The satisfaction predicate of the original linear system (claim C2's
"each row's weighted XOR sum equals its constant entry") -/

/-- A row of an augmented matrix with `cols` columns is satisfied by the
assignment `a` when the XOR over the variable columns `c < cols - 1` of
(coefficient AND value) equals the constant-column entry. -/
def satRowL (cols : Nat) (rowData : List Bit) (a : AV) : Prop :=
  (∑ c ∈ Finset.range (cols - 1), rowData.getD c Bit.Off * avLookupD a c)
    = rowData.getD (cols - 1) Bit.Off

instance (cols : Nat) (rowData : List Bit) (a : AV) : Decidable (satRowL cols rowData a) := by
  unfold satRowL; infer_instance

/-- `a` satisfies every equation (row) of `m`. -/
def SatAll (m : Matrix) (a : AV) : Prop :=
  ∀ rowData ∈ m.data, satRowL m.cols rowData a

instance (m : Matrix) (a : AV) : Decidable (SatAll m a) := by
  unfold SatAll; infer_instance

/-! ## Lemmas about the canonical assignment maps -/

/-- The key list of an assignment map. -/
def avKeys (a : AV) : List Nat := a.map Prod.fst

theorem avLookup_avInsert_self (a : AV) (k : Nat) (v : Bit) :
    avLookup (avInsert a k v) k = some v := by
  induction a with
  | nil => simp [avInsert, avLookup]
  | cons p rest ih =>
    obtain ⟨k', v'⟩ := p
    by_cases h1 : k < k'
    · simp [avInsert, h1, avLookup]
    · by_cases h2 : k = k'
      · simp [avInsert, h1, h2, avLookup]
      · simp [avInsert, h1, h2, avLookup, ih]

theorem avLookup_avInsert_ne (a : AV) (k x : Nat) (v : Bit) (hx : x ≠ k) :
    avLookup (avInsert a k v) x = avLookup a x := by
  induction a with
  | nil => simp [avInsert, avLookup, hx]
  | cons p rest ih =>
    obtain ⟨k', v'⟩ := p
    by_cases h1 : k < k'
    · simp [avInsert, h1, avLookup, hx]
    · by_cases h2 : k = k'
      · subst h2
        simp [avInsert, h1, avLookup, hx]
      · by_cases h3 : x = k'
        · simp [avInsert, h1, h2, avLookup, h3]
        · simp [avInsert, h1, h2, avLookup, h3, ih]

theorem avLookup_eq_none_iff (a : AV) (x : Nat) :
    avLookup a x = none ↔ x ∉ avKeys a := by
  induction a with
  | nil => simp [avLookup, avKeys]
  | cons p rest ih =>
    obtain ⟨k, v⟩ := p
    by_cases h : x = k
    · simp [avLookup, avKeys, h]
    · simp [avLookup, avKeys, h, ih]

theorem avInsert_append (a : AV) (k : Nat) (v : Bit)
    (h : ∀ k' ∈ avKeys a, k' < k) : avInsert a k v = a ++ [(k, v)] := by
  induction a with
  | nil => simp [avInsert]
  | cons p rest ih =>
    obtain ⟨k', v'⟩ := p
    have hk' : k' < k := h k' (by simp [avKeys])
    have h1 : ¬ k < k' := by omega
    have h2 : k ≠ k' := by omega
    simp only [avInsert, h1, if_false, h2, List.cons_append]
    exact congrArg _ (ih (fun q hq => h q (by simp [avKeys] at hq ⊢; tauto)))

theorem mem_avKeys_avInsert (a : AV) (k v x) :
    x ∈ avKeys (avInsert a k v) ↔ x = k ∨ x ∈ avKeys a := by
  induction a with
  | nil => simp [avInsert, avKeys]
  | cons p rest ih =>
    obtain ⟨k', v'⟩ := p
    by_cases h1 : k < k'
    · simp [avInsert, h1, avKeys]
    · by_cases h2 : k = k'
      · subst h2; simp [avInsert, h1, avKeys]
      · simp [avInsert, h1, h2, avKeys] at ih ⊢
        tauto

/-- Lookup after a fold of inserts, at a key none of the folded entries use. -/
theorem avLookup_foldl_insert_not_mem {α : Type} (l : List α) (key : α → Nat)
    (g : α → Bit) (init : AV) (x : Nat) (hx : ∀ p ∈ l, key p ≠ x) :
    avLookup (l.foldl (fun r p => avInsert r (key p) (g p)) init) x = avLookup init x := by
  induction l generalizing init with
  | nil => rfl
  | cons p rest ih =>
    have h1 : key p ≠ x := hx p (by simp)
    rw [List.foldl_cons, ih _ (fun q hq => hx q (by simp [hq]))]
    exact avLookup_avInsert_ne _ _ _ _ (fun h => h1 h.symm)

/-- Lookup after a fold of inserts with pairwise-distinct keys, at the key of
one of the folded entries. -/
theorem avLookup_foldl_insert_mem {α : Type} (l : List α) (key : α → Nat)
    (g : α → Bit) (init : AV) (p : α) (hnd : (l.map key).Nodup) (hp : p ∈ l) :
    avLookup (l.foldl (fun r q => avInsert r (key q) (g q)) init) (key p) = some (g p) := by
  induction l generalizing init with
  | nil => cases hp
  | cons q rest ih =>
    rw [List.map_cons, List.nodup_cons] at hnd
    rcases List.mem_cons.mp hp with h | h
    · subst h
      rw [List.foldl_cons, avLookup_foldl_insert_not_mem _ _ _ _ _
        (fun r hr hkey => hnd.1 (by rw [← hkey]; exact List.mem_map_of_mem key hr))]
      exact avLookup_avInsert_self _ _ _
    · rw [List.foldl_cons]
      exact ih _ hnd.2 h

/-- Two assignment maps with the same duplicate-free key sequence and the same
lookups are equal as lists. -/
theorem av_ext (a b : AV) (hk : avKeys a = avKeys b) (hnd : (avKeys a).Nodup)
    (h : ∀ x, avLookup a x = avLookup b x) : a = b := by
  induction a generalizing b with
  | nil =>
    cases b with
    | nil => rfl
    | cons q b' => simp [avKeys] at hk
  | cons p a' ih =>
    cases b with
    | nil => simp [avKeys] at hk
    | cons q b' =>
      obtain ⟨k, v⟩ := p
      obtain ⟨k', v'⟩ := q
      simp only [avKeys, List.map_cons, List.cons.injEq] at hk
      obtain ⟨hkk, htl⟩ := hk
      subst hkk
      simp only [avKeys, List.map_cons, List.nodup_cons] at hnd
      have hv : v = v' := by
        have := h k
        simpa [avLookup] using this
      subst hv
      refine congrArg _ (ih b' htl hnd.2 fun x => ?_)
      by_cases hx : x = k
      · subst hx
        rw [(avLookup_eq_none_iff a' x).mpr hnd.1,
          (avLookup_eq_none_iff b' x).mpr (by unfold avKeys; rw [← htl]; exact hnd.1)]
      · have := h x
        simpa [avLookup, hx] using this

/-! ## Lemmas about `get_leading_column` -/

theorem get_leading_column_eq_some_iff (l : List Bit) (c : Nat) :
    get_leading_column l = some c ↔
      (c < l.length ∧ l.getD c Bit.Off = Bit.On ∧ ∀ j < c, l.getD j Bit.Off = Bit.Off) := by
  induction l generalizing c with
  | nil => simp [get_leading_column]
  | cons b rest ih =>
    cases b with
    | On =>
      cases c with
      | zero => simp [get_leading_column]
      | succ c' =>
        simp only [get_leading_column]
        constructor
        · intro h; cases h
        · rintro ⟨-, -, hoff⟩
          have := hoff 0 (Nat.succ_pos _)
          simp [List.getD] at this
    | Off =>
      cases c with
      | zero =>
        simp only [get_leading_column, List.getD_cons_zero]
        constructor
        · intro h
          rcases Option.map_eq_some'.mp h with ⟨c', -, hc'⟩
          omega
        · rintro ⟨-, h, -⟩; cases h
      | succ c' =>
        simp only [get_leading_column, List.length_cons, List.getD_cons_succ]
        constructor
        · intro h
          rcases Option.map_eq_some'.mp h with ⟨c'', hc'', heq⟩
          have hc : c'' = c' := by omega
          rw [hc] at hc''
          obtain ⟨h1, h2, h3⟩ := (ih c').mp hc''
          refine ⟨by omega, h2, fun j hj => ?_⟩
          cases j with
          | zero => simp
          | succ j' => simpa using h3 j' (by omega)
        · rintro ⟨h1, h2, h3⟩
          have : get_leading_column rest = some c' :=
            (ih c').mpr ⟨by omega, h2, fun j hj => by simpa using h3 (j + 1) (by omega)⟩
          simp [this]

theorem get_leading_column_eq_none_iff (l : List Bit) :
    get_leading_column l = none ↔ ∀ j < l.length, l.getD j Bit.Off = Bit.Off := by
  induction l with
  | nil => simp [get_leading_column]
  | cons b rest ih =>
    cases b with
    | On =>
      simp only [get_leading_column, List.length_cons]
      constructor
      · intro h; cases h
      · intro h
        have := h 0 (Nat.succ_pos _)
        simp [List.getD] at this
    | Off =>
      simp only [get_leading_column, Option.map_eq_none', List.length_cons]
      rw [ih]
      constructor
      · intro h j hj
        cases j with
        | zero => simp
        | succ j' => simpa using h j' (by omega)
      · intro h j hj
        simpa using h (j + 1) (by omega)

theorem get_leading_column_lt_length {l : List Bit} {c : Nat}
    (h : get_leading_column l = some c) : c < l.length :=
  ((get_leading_column_eq_some_iff l c).mp h).1

theorem get_leading_column_on {l : List Bit} {c : Nat}
    (h : get_leading_column l = some c) : l.getD c Bit.Off = Bit.On :=
  ((get_leading_column_eq_some_iff l c).mp h).2.1

theorem get_leading_column_off_lt {l : List Bit} {c : Nat}
    (h : get_leading_column l = some c) : ∀ j < c, l.getD j Bit.Off = Bit.Off :=
  ((get_leading_column_eq_some_iff l c).mp h).2.2

/-! ## Lemmas about `sortKey` -/

theorem sortKey_le (cols : Nat) (row : List Bit) (hlen : row.length = cols) :
    sortKey cols row ≤ cols := by
  unfold sortKey
  cases h : get_leading_column row with
  | none => simp
  | some c =>
    have := hlen ▸ get_leading_column_lt_length h
    simp
    omega

theorem sortKey_eq_cols_iff (cols : Nat) (row : List Bit) (hlen : row.length = cols) :
    sortKey cols row = cols ↔ get_leading_column row = none := by
  unfold sortKey
  cases h : get_leading_column row with
  | none => simp
  | some c =>
    have := hlen ▸ get_leading_column_lt_length h
    simp
    omega

theorem sortKey_eq_leading {cols : Nat} {row : List Bit} {c : Nat}
    (h : get_leading_column row = some c) : sortKey cols row = c := by
  unfold sortKey; rw [h]; rfl

/-- If the sort key is a genuine column (strictly below `cols`), it is the
leading column. -/
theorem leading_of_sortKey_lt {cols : Nat} {row : List Bit} (h : sortKey cols row < cols) :
    get_leading_column row = some (sortKey cols row) := by
  unfold sortKey at h ⊢
  cases hg : get_leading_column row with
  | none => rw [hg] at h; simp at h
  | some c => simp [hg]

/-- Entries strictly left of the sort key are `Off`. -/
theorem entry_off_of_lt_sortKey {cols : Nat} {row : List Bit} {j : Nat}
    (hj : j < sortKey cols row) : row.getD j Bit.Off = Bit.Off := by
  unfold sortKey at hj
  cases hg : get_leading_column row with
  | none =>
    rw [hg] at hj
    simp at hj
    by_cases hjl : j < row.length
    · exact (get_leading_column_eq_none_iff row).mp hg j hjl
    · exact List.getD_eq_default _ _ (by omega)
  | some c =>
    rw [hg] at hj
    exact get_leading_column_off_lt hg j hj

/-- An `On` entry bounds the sort key from above. -/
theorem sortKey_le_of_entry_on {cols : Nat} {row : List Bit} {j : Nat}
    (h : row.getD j Bit.Off = Bit.On) : sortKey cols row ≤ j := by
  by_contra hlt
  push_neg at hlt
  rw [entry_off_of_lt_sortKey hlt] at h
  cases h

/-! ## Lemmas about `sortRows` / `sortMatrix` -/

/-- Row lists sorted by the leading-column key (with sentinel `cols`). -/
def SortedByKey (cols : Nat) (l : List (List Bit)) : Prop :=
  l.Pairwise (fun a b => sortKey cols a ≤ sortKey cols b)

theorem insertRow_perm (cols : Nat) (r : List Bit) (l : List (List Bit)) :
    (insertRow cols r l).Perm (r :: l) := by
  induction l with
  | nil => simp [insertRow]
  | cons s rest ih =>
    by_cases h : sortKey cols r ≤ sortKey cols s
    · simp [insertRow, h]
    · simp only [insertRow, h, if_false]
      exact (ih.cons s).trans (List.Perm.swap r s rest)

theorem sortRows_perm (cols : Nat) (l : List (List Bit)) :
    (sortRows cols l).Perm l := by
  induction l with
  | nil => simp [sortRows]
  | cons r rest ih =>
    exact (insertRow_perm cols r (sortRows cols rest)).trans (ih.cons r)

theorem insertRow_sorted (cols : Nat) (r : List Bit) (l : List (List Bit))
    (h : SortedByKey cols l) : SortedByKey cols (insertRow cols r l) := by
  induction l with
  | nil => simp [insertRow, SortedByKey]
  | cons s rest ih =>
    rw [SortedByKey, List.pairwise_cons] at h
    by_cases hle : sortKey cols r ≤ sortKey cols s
    · rw [SortedByKey, insertRow, if_pos hle, List.pairwise_cons]
      refine ⟨fun b hb => ?_, List.pairwise_cons.mpr h⟩
      rcases List.mem_cons.mp hb with hb | hb
      · exact hb ▸ hle
      · exact le_trans hle (h.1 b hb)
    · rw [SortedByKey, insertRow, if_neg hle, List.pairwise_cons]
      refine ⟨fun b hb => ?_, ih h.2⟩
      rcases List.mem_cons.mp ((insertRow_perm cols r rest).mem_iff.mp hb) with hb | hb
      · subst hb; omega
      · exact h.1 b hb

theorem sortRows_sorted (cols : Nat) (l : List (List Bit)) :
    SortedByKey cols (sortRows cols l) := by
  induction l with
  | nil => simp [sortRows, SortedByKey]
  | cons r rest ih => exact insertRow_sorted cols r _ ih

theorem sortRows_eq_of_sorted (cols : Nat) (l : List (List Bit))
    (h : SortedByKey cols l) : sortRows cols l = l := by
  induction l with
  | nil => rfl
  | cons r rest ih =>
    rw [SortedByKey, List.pairwise_cons] at h
    rw [sortRows, ih h.2]
    cases rest with
    | nil => rfl
    | cons s rest' =>
      rw [insertRow, if_pos (h.1 s (by simp))]

/-- Sorting a list whose prefix is already sorted and key-dominated by the
suffix leaves the prefix in place. -/
theorem sortRows_append (cols : Nat) (pre suf : List (List Bit))
    (hpre : SortedByKey cols pre)
    (hdom : ∀ p ∈ pre, ∀ q ∈ suf, sortKey cols p ≤ sortKey cols q) :
    sortRows cols (pre ++ suf) = pre ++ sortRows cols suf := by
  induction pre with
  | nil => rfl
  | cons p pre' ih =>
    rw [SortedByKey, List.pairwise_cons] at hpre
    rw [List.cons_append, sortRows,
      ih hpre.2 (fun a ha b hb => hdom a (by simp [ha]) b hb)]
    cases hc : pre' ++ sortRows cols suf with
    | nil => rw [List.cons_append, hc]; rfl
    | cons s rest' =>
      have hs : s ∈ pre' ++ sortRows cols suf := by rw [hc]; simp
      have hps : sortKey cols p ≤ sortKey cols s := by
        rcases List.mem_append.mp hs with hs | hs
        · exact hpre.1 s hs
        · exact hdom p (by simp) s ((sortRows_perm cols suf).mem_iff.mp hs)
      rw [List.cons_append, hc, insertRow, if_pos hps]

theorem sortMatrix_rows (m : Matrix) : m.sortMatrix.rows = m.rows := rfl

theorem sortMatrix_cols (m : Matrix) : m.sortMatrix.cols = m.cols := rfl

theorem sortMatrix_valid (m : Matrix) (h : m.Valid) : m.sortMatrix.Valid := by
  obtain ⟨h1, h2, h3, h4⟩ := h
  refine ⟨h1, h2, ?_, ?_⟩
  · rw [Matrix.sortMatrix]
    simpa using (sortRows_perm m.cols m.data).length_eq.trans h3
  · intro row hrow
    exact h4 row ((sortRows_perm m.cols m.data).mem_iff.mp hrow)

/-! ## Pointwise lemmas about rows, entries and the row operations -/

theorem Matrix.valid_iff (m : Matrix) :
    m.Valid ↔ (0 < m.rows ∧ 0 < m.cols ∧ m.data.length = m.rows ∧
      ∀ r < m.rows, (m.row r).length = m.cols) := by
  unfold Matrix.Valid
  refine and_congr_right fun _ => and_congr_right fun _ => and_congr_right fun h3 => ?_
  constructor
  · intro h r hr
    rw [Matrix.row, List.getD_eq_getElem _ _ (by omega)]
    exact h _ (List.getElem_mem _)
  · intro h row hrow
    rcases List.mem_iff_getElem.mp hrow with ⟨i, hi, hrow'⟩
    have := h i (by omega)
    rwa [Matrix.row, List.getD_eq_getElem _ _ (by omega), hrow'] at this

theorem Matrix.row_length {m : Matrix} (h : m.Valid) {r : Nat} (hr : r < m.rows) :
    (m.row r).length = m.cols :=
  ((Matrix.valid_iff m).mp h).2.2.2 r hr

theorem Matrix.row_of_ge {m : Matrix} (h3 : m.data.length = m.rows) {r : Nat}
    (hr : m.rows ≤ r) : m.row r = [] := by
  rw [Matrix.row, List.getD_eq_default _ _ (by omega)]

/-- Matrices with the same shape and the same rows are equal. -/
theorem Matrix.ext_rows {m1 m2 : Matrix} (hr : m1.rows = m2.rows) (hc : m1.cols = m2.cols)
    (hl : m1.data.length = m2.data.length) (h : ∀ r < m1.data.length, m1.row r = m2.row r) :
    m1 = m2 := by
  obtain ⟨r1, c1, d1⟩ := m1
  obtain ⟨r2, c2, d2⟩ := m2
  simp only at hr hc hl h
  subst hr; subst hc
  simp only [Matrix.mk.injEq, true_and]
  refine List.ext_getElem hl fun i hi1 hi2 => ?_
  have := h i hi1
  rwa [Matrix.row, Matrix.row, List.getD_eq_getElem _ _ hi1,
    List.getD_eq_getElem _ _ hi2] at this

theorem addRows_length (cols : Nat) (tgt src : List Bit) :
    (addRows cols tgt src).length = cols := by simp [addRows]

theorem addRows_getD {cols : Nat} (tgt src : List Bit) {c : Nat} (hc : c < cols) :
    (addRows cols tgt src).getD c Bit.Off = tgt.getD c Bit.Off + src.getD c Bit.Off := by
  rw [addRows, List.getD_eq_getElem _ _ (by simpa using hc)]
  simp

theorem addRows_getD_of_ge {cols : Nat} (tgt src : List Bit) {c : Nat} (hc : cols ≤ c) :
    (addRows cols tgt src).getD c Bit.Off = Bit.Off := by
  rw [List.getD_eq_default _ _ (by rw [addRows_length]; omega)]

theorem elementary_rows (m : Matrix) (s t : Nat) :
    (m.elementary_add_row_to s t).rows = m.rows := rfl

theorem elementary_cols (m : Matrix) (s t : Nat) :
    (m.elementary_add_row_to s t).cols = m.cols := rfl

theorem elementary_data_length (m : Matrix) (s t : Nat) :
    (m.elementary_add_row_to s t).data.length = m.data.length := by
  simp [Matrix.elementary_add_row_to]

theorem elementary_row_target (m : Matrix) (s t : Nat) (ht : t < m.data.length) :
    (m.elementary_add_row_to s t).row t = addRows m.cols (m.row t) (m.row s) := by
  rw [Matrix.elementary_add_row_to, Matrix.row, Matrix.row, Matrix.row]
  simp only [List.getD_eq_getElem?_getD, List.getElem?_set_self ht]
  rfl

theorem elementary_row_other (m : Matrix) (s t r : Nat) (hr : r ≠ t) :
    (m.elementary_add_row_to s t).row r = m.row r := by
  rw [Matrix.elementary_add_row_to, Matrix.row, Matrix.row]
  simp only [List.getD_eq_getElem?_getD, List.getElem?_set_ne (fun h => hr h.symm)]

theorem decimateStep_rows (src col : Nat) (acc : Matrix) (r : Nat) :
    (decimateStep src col acc r).rows = acc.rows := by
  unfold decimateStep
  split <;> try rfl
  split <;> rfl

theorem decimateStep_cols (src col : Nat) (acc : Matrix) (r : Nat) :
    (decimateStep src col acc r).cols = acc.cols := by
  unfold decimateStep
  split <;> try rfl
  split <;> rfl

theorem decimateStep_data_length (src col : Nat) (acc : Matrix) (r : Nat) :
    (decimateStep src col acc r).data.length = acc.data.length := by
  unfold decimateStep
  split
  · rfl
  · split
    · exact elementary_data_length _ _ _
    · rfl

theorem decimate_foldl_rows (src col : Nat) (l : List Nat) (m : Matrix) :
    (l.foldl (decimateStep src col) m).rows = m.rows := by
  induction l generalizing m with
  | nil => rfl
  | cons a l ih => rw [List.foldl_cons, ih, decimateStep_rows]

theorem decimate_foldl_cols (src col : Nat) (l : List Nat) (m : Matrix) :
    (l.foldl (decimateStep src col) m).cols = m.cols := by
  induction l generalizing m with
  | nil => rfl
  | cons a l ih => rw [List.foldl_cons, ih, decimateStep_cols]

theorem decimate_foldl_data_length (src col : Nat) (l : List Nat) (m : Matrix) :
    (l.foldl (decimateStep src col) m).data.length = m.data.length := by
  induction l generalizing m with
  | nil => rfl
  | cons a l ih => rw [List.foldl_cons, ih, decimateStep_data_length]

/-- Row-level characterisation of the `decimate_column_with_row` loop after
processing rows `0..n`: each processed row other than the source with an `On`
bit at `col` has had the (unchanged) source row added to it. -/
theorem decimate_aux (m : Matrix) (src col : Nat) (hlen : m.data.length = m.rows) :
    ∀ n, n ≤ m.rows → ∀ r,
      ((List.range n).foldl (decimateStep src col) m).row r =
        if r < n ∧ r ≠ src ∧ m.entry r col = Bit.On
        then addRows m.cols (m.row r) (m.row src) else m.row r := by
  intro n
  induction n with
  | zero =>
    intro _ r
    simp
  | succ n ih =>
    intro hn r
    have hn' : n ≤ m.rows := by omega
    rw [List.range_succ, List.foldl_append, List.foldl_cons, List.foldl_nil]
    set A := (List.range n).foldl (decimateStep src col) m with hA
    have hArows : A.rows = m.rows := decimate_foldl_rows _ _ _ _
    have hAcols : A.cols = m.cols := decimate_foldl_cols _ _ _ _
    have hAlen : A.data.length = m.data.length := decimate_foldl_data_length _ _ _ _
    have hAn : A.row n = m.row n := by
      rw [ih hn' n]
      simp
    have hAsrc : A.row src = m.row src := by
      rw [ih hn' src]
      simp
    by_cases hns : n = src
    · rw [decimateStep, if_pos hns, ih hn' r]
      subst hns
      by_cases hr : r = n
      · subst hr; simp
      · have : (r < n + 1 ∧ r ≠ n ∧ m.entry r col = Bit.On)
            ↔ (r < n ∧ r ≠ n ∧ m.entry r col = Bit.On) := by
          constructor <;> rintro ⟨h1, h2, h3⟩ <;> exact ⟨by omega, h2, h3⟩
        rw [if_congr this rfl rfl]
    · rw [decimateStep, if_neg hns]
      have hAentry : A.entry n col = m.entry n col := by rw [Matrix.entry, hAn]; rfl
      by_cases hOn : m.entry n col = Bit.On
      · rw [if_pos (hAentry.trans hOn)]
        by_cases hr : r = n
        · subst hr
          rw [elementary_row_target _ _ _ (by rw [hAlen, hlen]; omega), hAcols, hAn, hAsrc,
            if_pos ⟨by omega, hns, hOn⟩]
        · rw [elementary_row_other _ _ _ _ hr, ih hn' r]
          have : (r < n + 1 ∧ r ≠ src ∧ m.entry r col = Bit.On)
              ↔ (r < n ∧ r ≠ src ∧ m.entry r col = Bit.On) := by
            constructor <;> rintro ⟨h1, h2, h3⟩ <;> exact ⟨by omega, h2, h3⟩
          rw [if_congr this rfl rfl]
      · rw [if_neg (fun h => hOn (hAentry ▸ h)), ih hn' r]
        by_cases hr : r = n
        · subst hr
          simp [hOn]
        · have : (r < n + 1 ∧ r ≠ src ∧ m.entry r col = Bit.On)
              ↔ (r < n ∧ r ≠ src ∧ m.entry r col = Bit.On) := by
            constructor <;> rintro ⟨h1, h2, h3⟩
            · exact ⟨by omega, h2, h3⟩
            · exact ⟨by omega, h2, h3⟩
          rw [if_congr this rfl rfl]

theorem decimate_rows (m : Matrix) (src col : Nat) :
    (m.decimate_column_with_row src col).rows = m.rows := decimate_foldl_rows _ _ _ _

theorem decimate_cols (m : Matrix) (src col : Nat) :
    (m.decimate_column_with_row src col).cols = m.cols := decimate_foldl_cols _ _ _ _

theorem decimate_data_length (m : Matrix) (src col : Nat) :
    (m.decimate_column_with_row src col).data.length = m.data.length :=
  decimate_foldl_data_length _ _ _ _

/-- Row-level characterisation of `decimate_column_with_row`. -/
theorem decimate_row (m : Matrix) (src col : Nat) (hlen : m.data.length = m.rows) (r : Nat) :
    (m.decimate_column_with_row src col).row r =
      if r < m.rows ∧ r ≠ src ∧ m.entry r col = Bit.On
      then addRows m.cols (m.row r) (m.row src) else m.row r :=
  decimate_aux m src col hlen m.rows (le_refl _) r

theorem decimate_valid (m : Matrix) (src col : Nat) (h : m.Valid) :
    (m.decimate_column_with_row src col).Valid := by
  rw [Matrix.valid_iff]
  obtain ⟨h1, h2, h3, -⟩ := id h
  refine ⟨decimate_rows m src col ▸ h1, decimate_cols m src col ▸ h2,
    (decimate_data_length m src col).trans (h3.trans (decimate_rows m src col).symm), ?_⟩
  intro r hr
  rw [decimate_rows] at hr
  rw [decimate_row m src col h3 r, decimate_cols]
  split
  · exact addRows_length _ _ _
  · exact Matrix.row_length h hr

/-! ## The elimination invariant and the reduced row-echelon form -/

theorem Bit.add_off (a : Bit) : a + Bit.Off = a := by cases a <;> rfl

theorem Bit.off_add (a : Bit) : Bit.Off + a = a := by cases a <;> rfl

theorem Bit.eq_off_of_ne_on {b : Bit} (h : b ≠ Bit.On) : b = Bit.Off := by
  cases b
  · rfl
  · exact absurd rfl h

/-- The sort key of row `r` of matrix `m`. -/
def mkey (m : Matrix) (r : Nat) : Nat := sortKey m.cols (m.row r)

/-- Rows are in non-decreasing key order (zero rows keyed by the sentinel
`cols`, hence last). -/
def KeySorted (m : Matrix) : Prop :=
  ∀ i j, i ≤ j → j < m.rows → mkey m i ≤ mkey m j

/-- The post-condition of `Matrix::eliminate`: every non-zero row's leading
entry is the only `On` entry in its column, and rows are ordered by
non-decreasing leading-column key. -/
def IsRREF (m : Matrix) : Prop :=
  (∀ r < m.rows, ∀ L, get_leading_column (m.row r) = some L →
      ∀ j < m.rows, j ≠ r → m.entry j L = Bit.Off) ∧ KeySorted m

theorem sortKey_ge_of_entries_off {cols col : Nat} {rowData : List Bit}
    (h : ∀ c ≤ col, rowData.getD c Bit.Off = Bit.Off) (hcol : col < cols) :
    col + 1 ≤ sortKey cols rowData := by
  by_contra hlt
  push_neg at hlt
  have hk : sortKey cols rowData < cols := by omega
  have := get_leading_column_on (leading_of_sortKey_lt hk)
  rw [h _ (by omega)] at this
  cases this

theorem keySorted_of_sortedByKey {m : Matrix} (hlen : m.data.length = m.rows)
    (h : SortedByKey m.cols m.data) : KeySorted m := by
  intro i j hij hj
  rcases Nat.eq_or_lt_of_le hij with heq | hlt
  · exact heq ▸ le_refl _
  · have hj' : j < m.data.length := by omega
    have hi' : i < m.data.length := by omega
    have := List.pairwise_iff_getElem.mp h i j hi' hj' hlt
    rwa [mkey, mkey, Matrix.row, Matrix.row,
      List.getD_eq_getElem _ _ hi', List.getD_eq_getElem _ _ hj']

theorem sortedByKey_of_keySorted {m : Matrix} (hlen : m.data.length = m.rows)
    (h : KeySorted m) : SortedByKey m.cols m.data := by
  rw [SortedByKey, List.pairwise_iff_getElem]
  intro i j hi hj hij
  have := h i j (by omega) (by omega)
  rwa [mkey, mkey, Matrix.row, Matrix.row,
    List.getD_eq_getElem _ _ hi, List.getD_eq_getElem _ _ hj] at this

theorem sortMatrix_keySorted (m : Matrix) (hlen : m.data.length = m.rows) :
    KeySorted m.sortMatrix := by
  apply keySorted_of_sortedByKey
  · rw [Matrix.sortMatrix]
    simpa using (sortRows_perm m.cols m.data).length_eq.trans hlen
  · exact sortRows_sorted m.cols m.data


/-- The effect of one pivot step of `eliminate`: decimating the pivot column
and re-sorting keeps the processed prefix in place, extends the pivot
bookkeeping by the new pivot, and pushes the keys of the remaining rows past
the pivot column. -/
theorem pivot_step (m : Matrix) (row col : Nat)
    (hv : m.Valid) (hrow : row < m.rows) (hcol : col < m.cols)
    (hsorted : KeySorted m)
    (hpiv : ∀ i < row, ∃ L, get_leading_column (m.row i) = some L ∧ L ≤ col ∧
        ∀ j < m.rows, j ≠ i → m.entry j L = Bit.Off)
    (hD : ∀ i, row ≤ i → i < m.rows → col ≤ mkey m i)
    (hOn : m.entry row col = Bit.On)
    (m₂ : Matrix) (hm₂ : m₂ = (m.decimate_column_with_row row col).sortMatrix) :
    m₂.Valid ∧ m₂.rows = m.rows ∧ m₂.cols = m.cols ∧ KeySorted m₂ ∧
    (∀ i < row + 1, ∃ L, get_leading_column (m₂.row i) = some L ∧ L ≤ col ∧
        ∀ j < m₂.rows, j ≠ i → m₂.entry j L = Bit.Off) ∧
    (∀ i, row + 1 ≤ i → i < m₂.rows → col ≤ mkey m₂ i) := by
  obtain ⟨hv1, hv2, hv3, -⟩ := id hv
  set m₁ := m.decimate_column_with_row row col with hm₁def
  -- the pivot row's leading column is exactly `col`
  have hkeyrow : mkey m row = col := by
    have h1 := hD row (le_refl _) hrow
    have h2 : mkey m row ≤ col := sortKey_le_of_entry_on hOn
    omega
  have hlead : get_leading_column (m.row row) = some col := by
    have h := leading_of_sortKey_lt
      (show sortKey m.cols (m.row row) < m.cols by rw [mkey] at hkeyrow; omega)
    rw [mkey] at hkeyrow
    rw [hkeyrow] at h
    exact h
  have hrowOff : ∀ c < col, m.entry row c = Bit.Off := fun c hc =>
    get_leading_column_off_lt hlead c hc
  -- the decimated matrix, row by row
  have hm₁row : ∀ r, m₁.row r =
      if r < m.rows ∧ r ≠ row ∧ m.entry r col = Bit.On
      then addRows m.cols (m.row r) (m.row row) else m.row r :=
    fun r => decimate_row m row col hv3 r
  have hm₁rows : m₁.rows = m.rows := decimate_rows m row col
  have hm₁cols : m₁.cols = m.cols := decimate_cols m row col
  have hm₁len : m₁.data.length = m.rows := (decimate_data_length m row col).trans hv3
  have hm₁valid : m₁.Valid := decimate_valid m row col hv
  have hm₁rowrow : m₁.row row = m.row row := by
    rw [hm₁row row, if_neg (by rintro ⟨-, h, -⟩; exact h rfl)]
  -- entries strictly left of the pivot column are untouched
  have hm₁entry_lt : ∀ r c, c < col → m₁.entry r c = m.entry r c := by
    intro r c hc
    show (m₁.row r).getD c Bit.Off = _
    rw [hm₁row r]
    split
    · rw [addRows_getD _ _ (by omega)]
      show m.entry r c + m.entry row c = m.entry r c
      rw [hrowOff c hc, Bit.add_off]
    · rfl
  -- the pivot column is cleared everywhere else
  have hm₁col : ∀ j < m.rows, j ≠ row → m₁.entry j col = Bit.Off := by
    intro j hj hjr
    show (m₁.row j).getD col Bit.Off = _
    rw [hm₁row j]
    by_cases hOnj : m.entry j col = Bit.On
    · rw [if_pos ⟨hj, hjr, hOnj⟩, addRows_getD _ _ hcol]
      show m.entry j col + m.entry row col = Bit.Off
      rw [hOnj, hOn]
      rfl
    · rw [if_neg (by rintro ⟨-, -, h⟩; exact hOnj h)]
      exact Bit.eq_off_of_ne_on hOnj
  -- previously finished pivots keep their leading column, strictly left of `col`
  have hm₁lead : ∀ i < row, ∃ L, get_leading_column (m₁.row i) = some L ∧ L < col ∧
      get_leading_column (m.row i) = some L := by
    intro i hi
    obtain ⟨L, hL, hLle, hLclear⟩ := hpiv i hi
    have hLlt : L < col := by
      rcases Nat.eq_or_lt_of_le hLle with heq | hlt
      · exfalso
        have := hLclear row hrow (by omega)
        rw [heq, hOn] at this
        cases this
      · exact hlt
    refine ⟨L, ?_, hLlt, hL⟩
    rw [get_leading_column_eq_some_iff]
    have hlen : (m₁.row i).length = m.cols := by
      rw [← hm₁cols]
      exact Matrix.row_length hm₁valid (by omega)
    refine ⟨by rw [hlen]; omega, ?_, fun j hj => ?_⟩
    · rw [show (m₁.row i).getD L Bit.Off = m₁.entry i L from rfl, hm₁entry_lt i L hLlt]
      exact get_leading_column_on hL
    · rw [show (m₁.row i).getD j Bit.Off = m₁.entry i j from rfl, hm₁entry_lt i j (by omega)]
      exact get_leading_column_off_lt hL j hj
  -- keys of the rows below the pivot move strictly past `col`
  have hm₁below : ∀ j, row < j → j < m.rows → col + 1 ≤ mkey m₁ j := by
    intro j hj hjr
    rw [mkey, hm₁cols]
    apply sortKey_ge_of_entries_off _ hcol
    intro c hc
    rcases Nat.lt_or_ge c col with hlt | hge
    · rw [show (m₁.row j).getD c Bit.Off = m₁.entry j c from rfl, hm₁entry_lt j c hlt]
      have := hD j (by omega) hjr
      exact entry_off_of_lt_sortKey
        (show c < sortKey m.cols (m.row j) by rw [mkey] at this; omega)
    · have hceq : c = col := by omega
      rw [hceq]
      exact hm₁col j hjr (by omega)
  -- keys of the processed prefix
  have hm₁keyi : ∀ i < row, mkey m₁ i = mkey m i := by
    intro i hi
    obtain ⟨L, hL₁, -, hLm⟩ := hm₁lead i hi
    rw [mkey, mkey, hm₁cols, sortKey_eq_leading hL₁, sortKey_eq_leading hLm]
  have hm₁keyrow : mkey m₁ row = col := by
    rw [mkey, hm₁cols, hm₁rowrow]
    exact hkeyrow
  -- the re-sort leaves the processed prefix (rows `0..row`) in place
  have hsplit : m₂.data = m₁.data.take (row + 1) ++ sortRows m.cols (m₁.data.drop (row + 1)) := by
    rw [hm₂, Matrix.sortMatrix, hm₁cols]
    conv in m₁.data => rw [← List.take_append_drop (row + 1) m₁.data]
    have htakele : (m₁.data.take (row + 1)).length ≤ m₁.data.length := by
      rw [List.length_take]
      exact min_le_right _ _
    have hmk : ∀ r, sortKey m.cols (m₁.row r) = mkey m₁ r := fun r => by rw [mkey, hm₁cols]
    apply sortRows_append
    · -- the prefix is sorted
      rw [SortedByKey, List.pairwise_iff_getElem]
      intro i j hi hj hij
      have hilen : i < m₁.data.length := lt_of_lt_of_le hi htakele
      have hjlen : j < m₁.data.length := lt_of_lt_of_le hj htakele
      have hjr : j ≤ row := by
        have := hj
        rw [List.length_take] at this
        omega
      rw [List.getElem_take, List.getElem_take]
      have hgi : m₁.data[i] = m₁.row i := by
        rw [Matrix.row, List.getD_eq_getElem _ _ hilen]
      have hgj : m₁.data[j] = m₁.row j := by
        rw [Matrix.row, List.getD_eq_getElem _ _ hjlen]
      rw [hgi, hgj, hmk i, hmk j]
      rcases Nat.lt_or_ge j row with hjlt | hjge
      · rw [hm₁keyi i (by omega), hm₁keyi j (by omega)]
        exact hsorted i j (by omega) (by omega)
      · have hjeq : j = row := by omega
        rw [hjeq, hm₁keyrow, hm₁keyi i (by omega)]
        have h1 := hsorted i row (by omega) hrow
        omega
    · -- every prefix key is at most every suffix key
      intro p hp q hq
      rcases List.mem_iff_getElem.mp hp with ⟨i, hi, hpi⟩
      rcases List.mem_iff_getElem.mp hq with ⟨j, hj, hqj⟩
      have hilen : i < m₁.data.length := lt_of_lt_of_le hi htakele
      have hirow : i ≤ row := by
        have := hi
        rw [List.length_take] at this
        omega
      have hjlen : row + 1 + j < m₁.data.length := by
        have := hj
        rw [List.length_drop] at this
        omega
      have hpkey : sortKey m.cols p = mkey m₁ i := by
        rw [← hpi, List.getElem_take, mkey, hm₁cols, Matrix.row, List.getD_eq_getElem _ _ hilen]
      have hqkey : sortKey m.cols q = mkey m₁ (row + 1 + j) := by
        rw [← hqj, List.getElem_drop, mkey, hm₁cols, Matrix.row, List.getD_eq_getElem _ _ hjlen]
      rw [hpkey, hqkey]
      have hqge : col + 1 ≤ mkey m₁ (row + 1 + j) := hm₁below _ (by omega) (by omega)
      rcases Nat.lt_or_ge i row with hilt | hige
      · rw [hm₁keyi i hilt]
        have h1 := hsorted i row (by omega) hrow
        omega
      · have : i = row := by omega
        rw [this, hm₁keyrow]
        omega
  have hm₂rows : m₂.rows = m.rows := by rw [hm₂]; exact (sortMatrix_rows _).trans hm₁rows
  have hm₂cols : m₂.cols = m.cols := by rw [hm₂]; exact (sortMatrix_cols _).trans hm₁cols
  have hm₂valid : m₂.Valid := by rw [hm₂]; exact sortMatrix_valid _ hm₁valid
  have hm₂len : m₂.data.length = m.rows := by
    have := ((Matrix.valid_iff _).mp hm₂valid).2.2.1
    omega
  -- rows `0..row` are unchanged by the re-sort
  have hXlen : (m₁.data.take (row + 1) ++ sortRows m.cols (m₁.data.drop (row + 1))).length
      = m.rows := by
    rw [← hsplit]
    exact hm₂len
  have hm₂pre : ∀ i ≤ row, m₂.row i = m₁.row i := by
    intro i hi
    have hilen₁ : i < m₁.data.length := by omega
    have hitake : i < (m₁.data.take (row + 1)).length := by
      rw [List.length_take]
      omega
    rw [Matrix.row, hsplit, List.getD_append _ _ _ _ hitake, List.getD_eq_getElem _ _ hitake,
      List.getElem_take, Matrix.row, List.getD_eq_getElem _ _ hilen₁]
  -- every row past the prefix is one of the original rows past the prefix
  have hm₂suf : ∀ j, row + 1 ≤ j → j < m.rows →
      ∃ k, row + 1 ≤ k ∧ k < m.rows ∧ m₂.row j = m₁.row k := by
    intro j hj hjr
    have hjtake : (m₁.data.take (row + 1)).length = row + 1 := by
      rw [List.length_take]
      omega
    have hmem : m₂.row j ∈ sortRows m.cols (m₁.data.drop (row + 1)) := by
      rw [Matrix.row, hsplit, List.getD_eq_getElem _ _ (by rw [hXlen]; omega),
        List.getElem_append_right (by rw [hjtake]; omega)]
      exact List.getElem_mem _
    have hmem' : m₂.row j ∈ m₁.data.drop (row + 1) :=
      (sortRows_perm _ _).mem_iff.mp hmem
    rcases List.mem_iff_getElem.mp hmem' with ⟨k, hk, hkeq⟩
    have hklen : row + 1 + k < m₁.data.length := by
      have := hk
      rw [List.length_drop] at this
      omega
    refine ⟨row + 1 + k, by omega, by omega, ?_⟩
    rw [← hkeq, List.getElem_drop, Matrix.row, List.getD_eq_getElem _ _ hklen]
  -- assemble the conclusions
  refine ⟨hm₂valid, hm₂rows, hm₂cols, ?_, ?_, ?_⟩
  · rw [hm₂]
    exact sortMatrix_keySorted _ (hm₁len.trans hm₁rows.symm)
  · -- pivots of the extended prefix
    intro i hi
    rcases Nat.lt_or_ge i row with hilt | hige
    · obtain ⟨L, hL₁, hLlt, hLm⟩ := hm₁lead i hilt
      obtain ⟨L', hL', -, hclear⟩ := hpiv i hilt
      have hLL : L' = L := by
        rw [hLm] at hL'
        exact (Option.some_injective _ hL').symm
      rw [hLL] at hclear
      refine ⟨L, by rw [hm₂pre i (by omega)]; exact hL₁, by omega, ?_⟩
      intro j hj hji
      rw [hm₂rows] at hj
      rcases Nat.lt_or_ge j (row + 1) with hjle | hjgt
      · rw [show m₂.entry j L = (m₂.row j).getD L Bit.Off from rfl, hm₂pre j (by omega)]
        rcases Nat.lt_or_ge j row with hjlt | hjge
        · rw [show (m₁.row j).getD L Bit.Off = m₁.entry j L from rfl, hm₁entry_lt j L hLlt]
          exact hclear j hj hji
        · have hjrow : j = row := by omega
          rw [hjrow, hm₁rowrow]
          exact hclear row hrow (by omega)
      · obtain ⟨k, hk1, hk2, hkeq⟩ := hm₂suf j hjgt hj
        rw [show m₂.entry j L = (m₂.row j).getD L Bit.Off from rfl, hkeq,
          show (m₁.row k).getD L Bit.Off = m₁.entry k L from rfl, hm₁entry_lt k L hLlt]
        exact hclear k hk2 (by omega)
    · have hieq : i = row := by omega
      subst hieq
      refine ⟨col, by rw [hm₂pre i (le_refl _), hm₁rowrow]; exact hlead, le_refl _, ?_⟩
      intro j hj hji
      rw [hm₂rows] at hj
      rcases Nat.lt_or_ge j (i + 1) with hjle | hjgt
      · rw [show m₂.entry j col = (m₂.row j).getD col Bit.Off from rfl, hm₂pre j (by omega)]
        exact hm₁col j hj hji
      · obtain ⟨k, hk1, hk2, hkeq⟩ := hm₂suf j hjgt hj
        rw [show m₂.entry j col = (m₂.row j).getD col Bit.Off from rfl, hkeq]
        exact hm₁col k hk2 (by omega)
  · -- keys of the remaining rows stayed past `col`
    intro i hi hir
    rw [hm₂rows] at hir
    obtain ⟨k, hk1, hk2, hkeq⟩ := hm₂suf i hi hir
    have : mkey m₂ i = mkey m₁ k := by
      rw [mkey, mkey, hm₂cols, hm₁cols, hkeq]
    rw [this]
    have := hm₁below k (by omega) hk2
    omega



theorem elimLoopF_rows : ∀ (fuel : Nat) (m : Matrix) (row col : Nat),
    (elimLoopF fuel m row col).rows = m.rows := by
  intro fuel
  induction fuel with
  | zero => intro m row col; rfl
  | succ fuel ih =>
    intro m row col
    cases hE : m.entry row col with
    | Off =>
      simp only [elimLoopF, hE]
      split
      · rfl
      · rw [ih]
    | On =>
      simp only [elimLoopF, hE]
      split
      · rw [sortMatrix_rows, decimate_rows]
      · rw [ih, sortMatrix_rows, decimate_rows]

theorem elimLoopF_cols : ∀ (fuel : Nat) (m : Matrix) (row col : Nat),
    (elimLoopF fuel m row col).cols = m.cols := by
  intro fuel
  induction fuel with
  | zero => intro m row col; rfl
  | succ fuel ih =>
    intro m row col
    cases hE : m.entry row col with
    | Off =>
      simp only [elimLoopF, hE]
      split
      · rfl
      · rw [ih]
    | On =>
      simp only [elimLoopF, hE]
      split
      · rw [sortMatrix_cols, decimate_cols]
      · rw [ih, sortMatrix_cols, decimate_cols]

theorem elimLoopF_valid : ∀ (fuel : Nat) (m : Matrix) (row col : Nat),
    m.Valid → (elimLoopF fuel m row col).Valid := by
  intro fuel
  induction fuel with
  | zero => intro m row col hv; exact hv
  | succ fuel ih =>
    intro m row col hv
    cases hE : m.entry row col with
    | Off =>
      simp only [elimLoopF, hE]
      split
      · exact hv
      · exact ih _ _ _ hv
    | On =>
      simp only [elimLoopF, hE]
      split
      · exact sortMatrix_valid _ (decimate_valid _ _ _ hv)
      · exact ih _ _ _ (sortMatrix_valid _ (decimate_valid _ _ _ hv))

/-- At an `Off` cursor cell whose row key is at least the cursor column, the
row key is strictly past the cursor column. -/
theorem mkey_ge_succ_of_entry_off {m : Matrix} {row col : Nat} (hcol : col < m.cols)
    (hge : col ≤ mkey m row) (hE : m.entry row col = Bit.Off) : col + 1 ≤ mkey m row := by
  rcases Nat.eq_or_lt_of_le hge with heq | hlt
  · exfalso
    have hk : sortKey m.cols (m.row row) < m.cols := by
      rw [mkey] at heq
      omega
    have hon := get_leading_column_on (leading_of_sortKey_lt hk)
    have hsk : sortKey m.cols (m.row row) = col := by
      rw [mkey] at heq
      omega
    rw [hsk, show (m.row row).getD col Bit.Off = m.entry row col from rfl, hE] at hon
    cases hon
  · omega

/-- The central invariant proof of `Matrix::eliminate`: from any cursor state
satisfying the loop invariant, the loop ends in reduced row-echelon form. -/
theorem elim_invariant : ∀ (fuel : Nat) (m : Matrix) (row col : Nat),
    m.Valid → row < m.rows → col < m.cols → KeySorted m →
    (∀ i < row, ∃ L, get_leading_column (m.row i) = some L ∧ L ≤ col ∧
        ∀ j < m.rows, j ≠ i → m.entry j L = Bit.Off) →
    (∀ i, row ≤ i → i < m.rows → col ≤ mkey m i) →
    m.rows - row + (m.cols - col) ≤ fuel →
    IsRREF (elimLoopF fuel m row col) := by
  intro fuel
  induction fuel with
  | zero =>
    intro m row col _ hrow hcol _ _ _ hfuel
    omega
  | succ fuel ih =>
    intro m row col hv hrow hcol hsorted hpiv hD hfuel
    cases hE : m.entry row col with
    | Off =>
      -- at an `Off` cell the key of every remaining row is strictly past `col`
      have hDrow : col + 1 ≤ mkey m row :=
        mkey_ge_succ_of_entry_off hcol (hD row (le_refl _) hrow) hE
      have hD' : ∀ i, row ≤ i → i < m.rows → col + 1 ≤ mkey m i := by
        intro i hi hir
        have := hsorted row i hi hir
        omega
      simp only [elimLoopF, hE]
      split
      · -- exit at the right edge: all remaining rows are zero rows
        rename_i hcc
        constructor
        · intro r hr L hL j hj hji
          rcases Nat.lt_or_ge r row with hrlt | hrge
          · obtain ⟨ℓ, hℓ, -, hclear⟩ := hpiv r hrlt
            have : L = ℓ := by
              rw [hℓ] at hL
              exact (Option.some_injective _ hL).symm
            rw [this]
            exact hclear j hj hji
          · exfalso
            have hkey : mkey m r = m.cols := by
              have h1 := hD' r hrge hr
              have h2 := sortKey_le m.cols (m.row r) (Matrix.row_length hv hr)
              rw [mkey]
              rw [mkey] at h1
              omega
            have : get_leading_column (m.row r) = none := by
              rw [← sortKey_eq_cols_iff m.cols (m.row r) (Matrix.row_length hv hr)]
              rw [mkey] at hkey
              exact hkey
            rw [this] at hL
            cases hL
        · exact hsorted
      · -- step right
        rename_i hcc
        exact ih m row (col + 1) hv hrow (by omega) hsorted
          (fun i hi => by
            obtain ⟨L, h1, h2, h3⟩ := hpiv i hi
            exact ⟨L, h1, by omega, h3⟩)
          hD' (by omega)
    | On =>
      obtain ⟨hm₂valid, hm₂rows, hm₂cols, hm₂sorted, hm₂piv, hm₂D⟩ :=
        pivot_step m row col hv hrow hcol hsorted hpiv hD hE
          ((m.decimate_column_with_row row col).sortMatrix) rfl
      simp only [elimLoopF, hE]
      split
      · -- exit at the bottom edge: every row carries a pivot
        rename_i hrr
        constructor
        · intro r hr L hL j hj hji
          have hrlt : r < row + 1 := by omega
          obtain ⟨ℓ, hℓ, -, hclear⟩ := hm₂piv r hrlt
          have : L = ℓ := by
            rw [hℓ] at hL
            exact (Option.some_injective _ hL).symm
          rw [this]
          exact hclear j hj hji
        · exact hm₂sorted
      · -- step down
        rename_i hrr
        exact ih _ (row + 1) col hm₂valid (by omega) (by omega) hm₂sorted hm₂piv hm₂D
          (by omega)

/-- After `Matrix::eliminate`, a valid matrix is in reduced row-echelon form. -/
theorem eliminate_isRREF (m : Matrix) (hv : m.Valid) : IsRREF m.eliminate := by
  obtain ⟨hv1, hv2, hv3, -⟩ := id hv
  rw [Matrix.eliminate]
  apply elim_invariant (m.rows + m.cols) m.sortMatrix 0 0 (sortMatrix_valid m hv)
    (by rw [sortMatrix_rows]; omega) (by rw [sortMatrix_cols]; omega)
    (sortMatrix_keySorted m hv3) (by omega) (fun i _ _ => Nat.zero_le _)
    (by rw [sortMatrix_rows, sortMatrix_cols]; omega)

theorem eliminate_rows (m : Matrix) : m.eliminate.rows = m.rows := by
  rw [Matrix.eliminate, elimLoopF_rows, sortMatrix_rows]

theorem eliminate_cols (m : Matrix) : m.eliminate.cols = m.cols := by
  rw [Matrix.eliminate, elimLoopF_cols, sortMatrix_cols]

theorem eliminate_valid (m : Matrix) (hv : m.Valid) : m.eliminate.Valid :=
  elimLoopF_valid _ _ _ _ (sortMatrix_valid m hv)


/-! ## Zero rows, idempotence of elimination, and termination fuel bounds -/

theorem is_row_zero_iff (m : Matrix) (r : Nat) :
    m.is_row_zero r = true ↔ get_leading_column (m.row r) = none := by
  rw [Matrix.is_row_zero, List.all_eq_true, get_leading_column_eq_none_iff]
  constructor
  · intro h j hj
    rw [List.getD_eq_getElem _ _ hj]
    exact of_decide_eq_true (h _ (List.getElem_mem _))
  · intro h b hb
    rcases List.mem_iff_getElem.mp hb with ⟨j, hj, hjb⟩
    have := h j hj
    rw [List.getD_eq_getElem _ _ hj, hjb] at this
    exact decide_eq_true this

theorem sortMatrix_eq_self {m : Matrix} (hlen : m.data.length = m.rows)
    (h : KeySorted m) : m.sortMatrix = m := by
  have heq := sortRows_eq_of_sorted m.cols m.data (sortedByKey_of_keySorted hlen h)
  rw [Matrix.sortMatrix]
  cases m
  simp only at heq
  simp [heq]

theorem decimate_eq_self (m : Matrix) (src col : Nat) (hv3 : m.data.length = m.rows)
    (h : ∀ j < m.rows, j ≠ src → m.entry j col = Bit.Off) :
    m.decimate_column_with_row src col = m := by
  apply Matrix.ext_rows (decimate_rows m src col) (decimate_cols m src col)
    (decimate_data_length m src col)
  intro r hr
  rw [decimate_row m src col hv3 r]
  split
  · rename_i hcond
    obtain ⟨h1, h2, h3⟩ := hcond
    rw [h r h1 h2] at h3
    cases h3
  · rfl

/-- A matrix already in reduced row-echelon form is a fixed point of the
elimination loop. -/
theorem elim_fix : ∀ (fuel : Nat) (m : Matrix) (row col : Nat),
    m.Valid → IsRREF m → row < m.rows → col < m.cols →
    (∀ i, row ≤ i → i < m.rows → col ≤ mkey m i) →
    m.rows - row + (m.cols - col) ≤ fuel →
    elimLoopF fuel m row col = m := by
  intro fuel
  induction fuel with
  | zero =>
    intro m row col _ _ hrow hcol _ hfuel
    omega
  | succ fuel ih =>
    intro m row col hv hrref hrow hcol hD hfuel
    have hv3 : m.data.length = m.rows := ((Matrix.valid_iff m).mp hv).2.2.1
    cases hE : m.entry row col with
    | Off =>
      have hD' : ∀ i, row ≤ i → i < m.rows → col + 1 ≤ mkey m i := by
        intro i hi hir
        have h1 := mkey_ge_succ_of_entry_off hcol (hD row (le_refl _) hrow) hE
        have := hrref.2 row i hi hir
        omega
      simp only [elimLoopF, hE]
      split
      · rfl
      · exact ih m row (col + 1) hv hrref hrow (by omega) hD' (by omega)
    | On =>
      have hkeyrow : mkey m row = col := by
        have h1 := hD row (le_refl _) hrow
        have h2 : mkey m row ≤ col := sortKey_le_of_entry_on hE
        omega
      have hlead : get_leading_column (m.row row) = some col := by
        have h := leading_of_sortKey_lt
          (show sortKey m.cols (m.row row) < m.cols by rw [mkey] at hkeyrow; omega)
        rw [mkey] at hkeyrow
        rw [hkeyrow] at h
        exact h
      have hclear : ∀ j < m.rows, j ≠ row → m.entry j col = Bit.Off :=
        hrref.1 row hrow col hlead
      have hdec : m.decimate_column_with_row row col = m :=
        decimate_eq_self m row col hv3 hclear
      have hsm : (m.decimate_column_with_row row col).sortMatrix = m := by
        rw [hdec]
        exact sortMatrix_eq_self hv3 hrref.2
      simp only [elimLoopF, hE]
      split
      · exact hsm
      · rename_i hrr
        rw [hsm]
        apply ih m (row + 1) col hv hrref (by omega) hcol _ (by omega)
        intro i hi hir
        have := hrref.2 row i (by omega) hir
        omega

/-- A valid matrix in reduced row-echelon form is a fixed point of
`Matrix::eliminate`. -/
theorem eliminate_eq_self (m : Matrix) (hv : m.Valid) (hrref : IsRREF m) :
    m.eliminate = m := by
  obtain ⟨hv1, hv2, hv3, -⟩ := id hv
  rw [Matrix.eliminate, sortMatrix_eq_self hv3 hrref.2]
  exact elim_fix (m.rows + m.cols) m 0 0 hv hrref (by omega) (by omega)
    (fun i _ _ => Nat.zero_le _) (by omega)

/-- Fuel irrelevance: once the fuel covers the remaining cursor budget
`(rows - row) + (cols - col)`, adding more fuel does not change the result —
this is exactly the termination argument of the `eliminate` loop (the cursor
strictly advances right or down each iteration over a finite grid). -/
theorem elimLoopF_fuel_add : ∀ (fuel : Nat) (m : Matrix) (row col k : Nat),
    m.Valid → row < m.rows → col < m.cols →
    m.rows - row + (m.cols - col) ≤ fuel →
    elimLoopF (fuel + k) m row col = elimLoopF fuel m row col := by
  intro fuel
  induction fuel with
  | zero =>
    intro m row col k _ hrow hcol hfuel
    omega
  | succ fuel ih =>
    intro m row col k hv hrow hcol hfuel
    have hstep : fuel + 1 + k = (fuel + k) + 1 := by omega
    rw [hstep]
    cases hE : m.entry row col with
    | Off =>
      simp only [elimLoopF, hE]
      split
      · rfl
      · rename_i hcc
        exact ih m row (col + 1) k hv hrow (by omega) (by omega)
    | On =>
      simp only [elimLoopF, hE]
      split
      · rfl
      · rename_i hrr
        have hv' : ((m.decimate_column_with_row row col).sortMatrix).Valid :=
          sortMatrix_valid _ (decimate_valid _ _ _ hv)
        have hr' : ((m.decimate_column_with_row row col).sortMatrix).rows = m.rows := by
          rw [sortMatrix_rows, decimate_rows]
        have hc' : ((m.decimate_column_with_row row col).sortMatrix).cols = m.cols := by
          rw [sortMatrix_cols, decimate_cols]
        exact ih _ (row + 1) col k hv' (by omega) (by omega) (by omega)



/-! ## The `non_leading_columns` cursor walk -/

/-- `c` is a leading (pivot) column of some row of `m`. -/
def IsPivotCol (m : Matrix) (c : Nat) : Prop :=
  ∃ r, r < m.rows ∧ get_leading_column (m.row r) = some c

/-- Invariant analysis of the `non_leading_columns` cursor walk over a matrix
in reduced row-echelon form: every collected column is a genuine non-leading
column, the collected columns are strictly increasing, and — provided the last
row's key reaches the last two columns (in particular whenever a zero row
exists) — every non-leading column among the variable columns is collected. -/
theorem nlc_walk : ∀ (fuel : Nat) (m : Matrix) (row col : Nat) (acc : List Nat),
    m.Valid → IsRREF m → row < m.rows → col < m.cols →
    (∀ i < row, mkey m i < col) →
    (∀ i, row ≤ i → i < m.rows → col ≤ mkey m i) →
    (∀ c ∈ acc, c < col ∧ ¬ IsPivotCol m c) →
    acc.Pairwise (· < ·) →
    (∀ c, c < col → ¬ IsPivotCol m c → c ∈ acc) →
    m.cols - col ≤ fuel →
    (∀ c ∈ nlcF fuel m row col acc, c < m.cols ∧ ¬ IsPivotCol m c) ∧
    (nlcF fuel m row col acc).Pairwise (· < ·) ∧
    (m.cols - 2 ≤ mkey m (m.rows - 1) →
      ∀ c, c < m.cols - 1 → ¬ IsPivotCol m c → c ∈ nlcF fuel m row col acc) := by
  intro fuel
  induction fuel with
  | zero =>
    intro m row col acc _ _ _ hcol _ _ _ _ _ hfuel
    omega
  | succ fuel ih =>
    intro m row col acc hv hrref hrow hcol hpast hD haccsub haccsorted hcover hfuel
    cases hE : m.entry row col with
    | Off =>
      -- `col` is not a pivot column
      have hnp : ¬ IsPivotCol m col := by
        rintro ⟨r, hr, hlead⟩
        have hkeyr : mkey m r = col := by
          rw [mkey, sortKey_eq_leading hlead]
        rcases Nat.lt_or_ge r row with hrlt | hrge
        · have := hpast r hrlt
          omega
        · -- then the current row's key would also be `col`, making its entry `On`
          have h1 := hD row (le_refl _) hrow
          have h2 := hrref.2 row r hrge hr
          have hkeyrow : mkey m row = col := by omega
          have hleadrow := leading_of_sortKey_lt
            (show sortKey m.cols (m.row row) < m.cols by rw [mkey] at hkeyrow; omega)
          rw [mkey] at hkeyrow
          rw [hkeyrow] at hleadrow
          have := get_leading_column_on hleadrow
          rw [show (m.row row).getD col Bit.Off = m.entry row col from rfl, hE] at this
          cases this
      have haccsub' : ∀ c ∈ acc ++ [col], c < col + 1 ∧ ¬ IsPivotCol m c := by
        intro c hc
        rcases List.mem_append.mp hc with hc | hc
        · have := haccsub c hc
          exact ⟨by omega, this.2⟩
        · rw [List.mem_singleton.mp hc]
          exact ⟨by omega, hnp⟩
      have haccsorted' : (acc ++ [col]).Pairwise (· < ·) := by
        rw [List.pairwise_append]
        exact ⟨haccsorted, List.pairwise_singleton _ _,
          fun a ha b hb => by rw [List.mem_singleton.mp hb]; exact (haccsub a ha).1⟩
      have hcover' : ∀ c, c < col + 1 → ¬ IsPivotCol m c → c ∈ acc ++ [col] := by
        intro c hc hcp
        rcases Nat.lt_or_ge c col with hlt | hge
        · exact List.mem_append.mpr (Or.inl (hcover c hlt hcp))
        · have : c = col := by omega
          exact List.mem_append.mpr (Or.inr (by rw [this]; simp))
      simp only [nlcF, hE]
      split
      · -- exit at the right edge: `col = cols - 1`
        rename_i hcc
        refine ⟨fun c hc => ⟨by have := (haccsub' c hc).1; omega, (haccsub' c hc).2⟩,
          haccsorted', fun _ c hc hcp => hcover' c (by omega) hcp⟩
      · -- step right
        rename_i hcc
        have hD' : ∀ i, row ≤ i → i < m.rows → col + 1 ≤ mkey m i := by
          intro i hi hir
          have h1 := mkey_ge_succ_of_entry_off hcol (hD row (le_refl _) hrow) hE
          have := hrref.2 row i hi hir
          omega
        exact ih m row (col + 1) (acc ++ [col]) hv hrref hrow (by omega)
          (fun i hi => by have := hpast i hi; omega) hD' haccsub' haccsorted' hcover'
          (by omega)
    | On =>
      -- the current cell is the pivot of the current row
      have hkeyrow : mkey m row = col := by
        have h1 := hD row (le_refl _) hrow
        have h2 : mkey m row ≤ col := sortKey_le_of_entry_on hE
        omega
      have hleadrow : get_leading_column (m.row row) = some col := by
        have h := leading_of_sortKey_lt
          (show sortKey m.cols (m.row row) < m.cols by rw [mkey] at hkeyrow; omega)
        rw [mkey] at hkeyrow
        rw [hkeyrow] at h
        exact h
      simp only [nlcF, hE]
      split
      · -- exit at the bottom edge: the current row is the last row
        rename_i hrr
        refine ⟨fun c hc => ⟨by have := (haccsub c hc).1; omega, (haccsub c hc).2⟩,
          haccsorted, ?_⟩
        intro hlast c hc hcp
        have hrowlast : row = m.rows - 1 := by omega
        have hcolge : m.cols - 2 ≤ col := by
          rw [← hrowlast] at hlast
          omega
        rcases Nat.lt_or_ge c col with hlt | hge
        · exact hcover c hlt hcp
        · exfalso
          have : c = col := by omega
          exact hcp ⟨row, hrow, by rw [this]; exact hleadrow⟩
      · split
        · -- exit at the right edge without collecting the current column
          rename_i hrr hcc
          refine ⟨fun c hc => ⟨by have := (haccsub c hc).1; omega, (haccsub c hc).2⟩,
            haccsorted, ?_⟩
          intro _ c hc hcp
          exact hcover c (by omega) hcp
        · -- step diagonally down-right
          rename_i hrr hcc
          have hD' : ∀ i, row + 1 ≤ i → i < m.rows → col + 1 ≤ mkey m i := by
            intro i hi hir
            have h2 := hrref.2 row i (by omega) hir
            rcases Nat.eq_or_lt_of_le (show col ≤ mkey m i by omega) with heq | hlt
            · exfalso
              have hleadi := leading_of_sortKey_lt
                (show sortKey m.cols (m.row i) < m.cols by rw [mkey] at heq; omega)
              rw [mkey] at heq
              rw [← heq] at hleadi
              have := hrref.1 i hir col hleadi row hrow (by omega)
              rw [hE] at this
              cases this
            · omega
          exact ih m (row + 1) (col + 1) acc hv hrref (by omega) (by omega)
            (fun i hi => by
              rcases Nat.lt_or_ge i row with h | h
              · have := hpast i h
                omega
              · have : i = row := by omega
                rw [this]
                omega)
            hD'
            (fun c hc => by have := haccsub c hc; exact ⟨by omega, this.2⟩)
            haccsorted
            (fun c hc hcp => by
              rcases Nat.lt_or_ge c col with h | h
              · exact hcover c h hcp
              · exfalso
                have : c = col := by omega
                exact hcp ⟨row, hrow, by rw [this]; exact hleadrow⟩)
            (by omega)

/-- Specification of `Matrix::non_leading_columns` on a valid matrix in
reduced row-echelon form. -/
theorem non_leading_columns_spec (m : Matrix) (hv : m.Valid) (hrref : IsRREF m) :
    (∀ c ∈ m.non_leading_columns, c < m.cols ∧ ¬ IsPivotCol m c) ∧
    m.non_leading_columns.Pairwise (· < ·) ∧
    (m.cols - 2 ≤ mkey m (m.rows - 1) →
      ∀ c, c < m.cols - 1 → ¬ IsPivotCol m c → c ∈ m.non_leading_columns) := by
  obtain ⟨hv1, hv2, hv3, -⟩ := id hv
  rw [Matrix.non_leading_columns]
  exact nlc_walk m.cols m 0 0 [] hv hrref (by omega) (by omega)
    (by omega) (fun i _ _ => Nat.zero_le _) (by simp) (by simp) (by simp) (by omega)



/-! ## The `Equations::new` row loop -/

/-- Characterisation of the equation-building loop on a valid RREF matrix:
it emits exactly one entry per non-zero row whose leading column is not the
constant column, keyed by the leading column. -/
theorem buildEqns_mem (m : Matrix) (fv : List Nat) (hv : m.Valid) (hrref : IsRREF m) :
    ∀ (fuel row : Nat), m.rows - row ≤ fuel →
    ∀ L p, (L, p) ∈ buildEqnsF fuel m fv row ↔
      ∃ r, row ≤ r ∧ r < m.rows ∧ get_leading_column (m.row r) = some L ∧
        L ≠ m.cols - 1 ∧
        p = (fv.filter (fun c => m.entry r c = Bit.On), m.entry r (m.cols - 1)) := by
  intro fuel
  induction fuel with
  | zero =>
    intro row hfuel L p
    simp only [buildEqnsF, List.not_mem_nil, false_iff]
    rintro ⟨r, hr1, hr2, -⟩
    omega
  | succ fuel ih =>
    intro row hfuel L p
    by_cases hz : m.is_row_zero row
    · -- all rows from here on are zero rows
      simp only [buildEqnsF, hz, if_true, List.not_mem_nil, false_iff]
      rintro ⟨r, hr1, hr2, hlead, -⟩
      have hzlead : get_leading_column (m.row row) = none := (is_row_zero_iff m row).mp hz
      rcases Nat.eq_or_lt_of_le hr1 with heq | hlt
      · rw [← heq, hzlead] at hlead
        cases hlead
      · have hkeyrow : mkey m row = m.cols := by
          rw [mkey, sortKey, hzlead]
          rfl
        have hle := hrref.2 row r (by omega) hr2
        have hker : sortKey m.cols (m.row r) = m.cols := by
          have := sortKey_le m.cols (m.row r) (Matrix.row_length hv hr2)
          rw [mkey, mkey] at hle
          rw [mkey] at hkeyrow
          omega
        have : get_leading_column (m.row r) = none := by
          rw [← sortKey_eq_cols_iff m.cols (m.row r) (Matrix.row_length hv hr2)]
          exact hker
        rw [this] at hlead
        cases hlead
    · -- the current row is non-zero and emits (at most) one equation
      have hrowlt : row < m.rows := by
        by_contra hge
        push_neg at hge
        apply hz
        rw [is_row_zero_iff]
        rw [Matrix.row_of_ge ((Matrix.valid_iff m).mp hv).2.2.1 hge]
        rfl
      obtain ⟨L₀, hL₀⟩ : ∃ L₀, get_leading_column (m.row row) = some L₀ := by
        cases hg : get_leading_column (m.row row) with
        | none => exact absurd ((is_row_zero_iff m row).mpr hg) hz
        | some L₀ => exact ⟨L₀, rfl⟩
      have hunfold : buildEqnsF (fuel + 1) m fv row =
          (if L₀ ≠ m.cols - 1
           then [(L₀, (fv.filter (fun c => m.entry row c = Bit.On), m.entry row (m.cols - 1)))]
           else []) ++ buildEqnsF fuel m fv (row + 1) := by
        simp only [buildEqnsF, hz, hL₀, Bool.false_eq_true, if_false]
      rw [hunfold, List.mem_append, ih (row + 1) (by omega) L p]
      constructor
      · rintro (hhead | ⟨r, hr1, hr2, h3, h4, h5⟩)
        · by_cases hne : L₀ ≠ m.cols - 1
          · rw [if_pos hne] at hhead
            have heq := List.mem_singleton.mp hhead
            rw [Prod.mk.injEq] at heq
            refine ⟨row, le_refl _, hrowlt, ?_, ?_, ?_⟩
            · rw [hL₀, heq.1]
            · rw [heq.1]
              exact hne
            · exact heq.2
          · rw [if_neg hne] at hhead
            cases hhead
        · exact ⟨r, by omega, hr2, h3, h4, h5⟩
      · rintro ⟨r, hr1, hr2, h3, h4, h5⟩
        rcases Nat.eq_or_lt_of_le hr1 with heq | hlt
        · left
          rw [← heq] at h3
          have hLL : L = L₀ := by
            rw [hL₀] at h3
            exact (Option.some_injective _ h3).symm
          rw [if_pos (by rw [← hLL]; exact h4)]
          rw [← heq] at h5
          rw [List.mem_singleton, Prod.mk.injEq]
          exact ⟨hLL, h5⟩
        · right
          exact ⟨r, by omega, hr2, h3, h4, h5⟩

/-- The keys emitted by the equation-building loop are pairwise distinct on a
valid RREF matrix (each key is the strictly-identifying leading column of its
row). -/
theorem buildEqns_keys_nodup (m : Matrix) (fv : List Nat) (hv : m.Valid) (hrref : IsRREF m) :
    ∀ (fuel row : Nat), m.rows - row ≤ fuel →
    ((buildEqnsF fuel m fv row).map Prod.fst).Nodup := by
  intro fuel
  induction fuel with
  | zero =>
    intro row hfuel
    simp [buildEqnsF]
  | succ fuel ih =>
    intro row hfuel
    by_cases hz : m.is_row_zero row
    · simp [buildEqnsF, hz]
    · have hrowlt : row < m.rows := by
        by_contra hge
        push_neg at hge
        apply hz
        rw [is_row_zero_iff]
        rw [Matrix.row_of_ge ((Matrix.valid_iff m).mp hv).2.2.1 hge]
        rfl
      obtain ⟨L₀, hL₀⟩ : ∃ L₀, get_leading_column (m.row row) = some L₀ := by
        cases hg : get_leading_column (m.row row) with
        | none => exact absurd ((is_row_zero_iff m row).mpr hg) hz
        | some L₀ => exact ⟨L₀, rfl⟩
      have hunfold : buildEqnsF (fuel + 1) m fv row =
          (if L₀ ≠ m.cols - 1
           then [(L₀, (fv.filter (fun c => m.entry row c = Bit.On), m.entry row (m.cols - 1)))]
           else []) ++ buildEqnsF fuel m fv (row + 1) := by
        simp only [buildEqnsF, hz, hL₀, Bool.false_eq_true, if_false]
      rw [hunfold, List.map_append, List.nodup_append]
      refine ⟨?_, ih (row + 1) (by omega), ?_⟩
      · split
        · simp
        · simp
      · intro a ha hb
        -- any later key comes from a later row, whose leading column differs
        rcases List.mem_map.mp hb with ⟨⟨L, q⟩, hbq, hfst⟩
        rw [buildEqns_mem m fv hv hrref fuel (row + 1) (by omega)] at hbq
        obtain ⟨r, hr1, hr2, hlead, -, -⟩ := hbq
        have haL : a = L₀ := by
          split at ha
          · simpa using ha
          · simp at ha
        -- `L` is the leading column of a strictly later row, so `L ≠ L₀`
        rw [← hfst] at haL
        simp only at haL
        rw [haL] at hlead
        have := hrref.1 r hr2 L₀ hlead row hrowlt (by omega)
        rw [show m.entry row L₀ = (m.row row).getD L₀ Bit.Off from rfl,
          get_leading_column_on hL₀] at this
        cases this



/-! ## Lookup behaviour of `Equations::backfeed` -/

theorem avLookup_of_mem {a : AV} {k : Nat} {v : Bit} (hnd : (avKeys a).Nodup)
    (h : (k, v) ∈ a) : avLookup a k = some v := by
  induction a with
  | nil => cases h
  | cons p rest ih =>
    obtain ⟨k', v'⟩ := p
    rw [avKeys, List.map_cons, List.nodup_cons] at hnd
    rcases List.mem_cons.mp h with heq | hmem
    · rw [Prod.mk.injEq] at heq
      rw [avLookup, if_pos heq.1, heq.2]
    · have hne : k ≠ k' := by
        intro hkk
        exact hnd.1 (by rw [← hkk]; exact List.mem_map.mpr ⟨(k, v), hmem, rfl⟩)
      rw [avLookup, if_neg hne]
      exact ih hnd.2 hmem

/-- Looking up a free variable in a backfed assignment returns its value in
the input valuation (the valuation is merged last, overwriting). -/
theorem backfeed_lookup_valuation (e : Equations) (val : AV) (x : Nat)
    (hnd : (avKeys val).Nodup) (hx : x ∈ avKeys val) :
    avLookup (e.backfeed val) x = avLookup val x := by
  rcases List.mem_map.mp hx with ⟨⟨k, v⟩, hkv, hfst⟩
  simp only at hfst
  subst hfst
  rw [Equations.backfeed,
    avLookup_foldl_insert_mem val Prod.fst Prod.snd _ (k, v) hnd hkv,
    avLookup_of_mem hnd hkv]

/-- Looking up a dependent variable in a backfed assignment returns the XOR of
the valuation over the equation's terms plus the constant term. -/
theorem backfeed_lookup_eqn (e : Equations) (val : AV) (L : Nat) (terms : List Nat) (c : Bit)
    (hnd : (e.eqns.map Prod.fst).Nodup) (hmem : (L, (terms, c)) ∈ e.eqns)
    (hL : L ∉ avKeys val) :
    avLookup (e.backfeed val) L =
      some ((terms.foldl (fun value term => value + avLookupD val term) Bit.Off) + c) := by
  rw [Equations.backfeed,
    avLookup_foldl_insert_not_mem val Prod.fst Prod.snd _ L
      (fun p hp hpk => hL (hpk ▸ List.mem_map_of_mem Prod.fst hp))]
  exact avLookup_foldl_insert_mem e.eqns Prod.fst
    (fun p => (p.2.1.foldl (fun value term => value + avLookupD val term) Bit.Off) + p.2.2)
    [] (L, (terms, c)) hnd hmem

/-- Variables neither free nor dependent are absent from a backfed
assignment. -/
theorem backfeed_lookup_none (e : Equations) (val : AV) (x : Nat)
    (hx1 : x ∉ avKeys val) (hx2 : x ∉ e.eqns.map Prod.fst) :
    avLookup (e.backfeed val) x = none := by
  rw [Equations.backfeed,
    avLookup_foldl_insert_not_mem val Prod.fst Prod.snd _ x
      (fun p hp hpk => hx1 (hpk ▸ List.mem_map_of_mem Prod.fst hp)),
    avLookup_foldl_insert_not_mem e.eqns Prod.fst _ _ x
      (fun p hp hpk => hx2 (hpk ▸ List.mem_map_of_mem Prod.fst hp))]
  rfl



/-! ## The free-variable enumeration -/

theorem avKeys_append (a : AV) (k : Nat) (v : Bit) :
    avKeys (a ++ [(k, v)]) = avKeys a ++ [k] := by
  rw [avKeys, avKeys, List.map_append]
  rfl

/-- Doubling step of the enumeration: extending every assignment (all sharing
the same key list, all below the new variable) by both values of the new
variable preserves key uniformity and pairwise distinctness and doubles the
count. -/
theorem enum_double_spec (l : List AV) (v : Nat) (keys : List Nat)
    (hkeys : ∀ a ∈ l, avKeys a = keys) (hlt : ∀ k ∈ keys, k < v)
    (hnd : l.Pairwise (fun a b => a ≠ b)) :
    (∀ a ∈ l.flatMap (fun a => [avInsert a v Bit.Off, avInsert a v Bit.On]),
      avKeys a = keys ++ [v]) ∧
    (l.flatMap (fun a => [avInsert a v Bit.Off, avInsert a v Bit.On])).Pairwise
      (fun a b => a ≠ b) ∧
    (l.flatMap (fun a => [avInsert a v Bit.Off, avInsert a v Bit.On])).length
      = 2 * l.length := by
  have hins : ∀ a ∈ l, ∀ b : Bit, avInsert a v b = a ++ [(v, b)] := by
    intro a ha b
    exact avInsert_append a v b (fun k hk => hlt k (hkeys a ha ▸ hk))
  induction l with
  | nil => exact ⟨by simp, by simp, by simp⟩
  | cons a l ih =>
    rw [List.pairwise_cons] at hnd
    obtain ⟨ih1, ih2, ih3⟩ := ih (fun b hb => hkeys b (by simp [hb]))
      hnd.2 (fun b hb c => hins b (by simp [hb]) c)
    have hia : ∀ b : Bit, avInsert a v b = a ++ [(v, b)] := hins a (by simp)
    refine ⟨?_, ?_, ?_⟩
    · intro x hx
      rw [List.flatMap_cons, List.mem_append] at hx
      rcases hx with hx | hx
      · rcases List.mem_cons.mp hx with hx | hx
        · rw [hx, hia, avKeys_append, hkeys a (by simp)]
        · rw [List.mem_singleton.mp hx, hia, avKeys_append, hkeys a (by simp)]
      · exact ih1 x hx
    · rw [List.flatMap_cons, List.pairwise_append]
      refine ⟨?_, ih2, ?_⟩
      · rw [List.pairwise_cons]
        refine ⟨fun x hx => ?_, List.pairwise_singleton _ _⟩
        rw [List.mem_singleton.mp hx, hia, hia]
        intro hcontra
        have := List.append_inj_right hcontra (by rfl)
        rw [List.cons.injEq, Prod.mk.injEq] at this
        exact absurd this.1.2 (by intro hb; cases hb)
      · intro x hx y hy
        have hxa : ∃ bx : Bit, x = a ++ [(v, bx)] := by
          rcases List.mem_cons.mp hx with hx | hx
          · exact ⟨Bit.Off, by rw [hx, hia]⟩
          · exact ⟨Bit.On, by rw [List.mem_singleton.mp hx, hia]⟩
        rcases hxa with ⟨bx, hbx⟩
        rcases List.mem_flatMap.mp hy with ⟨b, hbl, hyb⟩
        have hyb' : ∃ byy : Bit, y = b ++ [(v, byy)] := by
          rcases List.mem_cons.mp hyb with hy' | hy'
          · exact ⟨Bit.Off, by rw [hy', hins b (by simp [hbl]) _]⟩
          · exact ⟨Bit.On, by rw [List.mem_singleton.mp hy', hins b (by simp [hbl]) _]⟩
        rcases hyb' with ⟨byy, hbyy⟩
        have hab : a ≠ b := hnd.1 b hbl
        have hlen : a.length = b.length := by
          have h1 := hkeys a (by simp)
          have h2 := hkeys b (by simp [hbl])
          have : avKeys a = avKeys b := h1.trans h2.symm
          have := congrArg List.length this
          rwa [avKeys, avKeys, List.length_map, List.length_map] at this
        rw [hbx, hbyy]
        intro hcontra
        exact hab (List.append_inj_left hcontra hlen)
    · rw [List.flatMap_cons, List.length_append, ih3]
      simp
      omega

/-- Specification of `enumerate_all_assignments` on a sorted variable list:
every produced assignment has exactly the variables as keys, the assignments
are pairwise distinct, and there are `2 ^ k` of them (`0` for an empty list,
matching the source's early return). -/
theorem enumerate_all_assignments_spec (vars : List Nat)
    (hsorted : vars.Pairwise (· < ·)) :
    (∀ a ∈ enumerate_all_assignments vars, avKeys a = vars) ∧
    (enumerate_all_assignments vars).Pairwise (fun a b => a ≠ b) ∧
    (enumerate_all_assignments vars).length
      = if vars.length = 0 then 0 else 2 ^ vars.length := by
  cases vars with
  | nil => exact ⟨by simp [enumerate_all_assignments], by simp [enumerate_all_assignments],
      by simp [enumerate_all_assignments]⟩
  | cons a rest =>
    rw [List.pairwise_cons] at hsorted
    rw [enumerate_all_assignments]
    -- generalised fold invariant
    suffices h : ∀ (vs : List Nat) (seed : List AV) (keys : List Nat),
        (∀ x ∈ seed, avKeys x = keys) →
        seed.Pairwise (fun x y => x ≠ y) →
        (∀ v ∈ vs, ∀ k ∈ keys, k < v) →
        vs.Pairwise (· < ·) →
        (∀ x ∈ vs.foldl (fun asgns var =>
            asgns.flatMap (fun a => [avInsert a var Bit.Off, avInsert a var Bit.On])) seed,
          avKeys x = keys ++ vs) ∧
        (vs.foldl (fun asgns var =>
            asgns.flatMap (fun a => [avInsert a var Bit.Off, avInsert a var Bit.On])) seed).Pairwise
          (fun x y => x ≠ y) ∧
        (vs.foldl (fun asgns var =>
            asgns.flatMap (fun a => [avInsert a var Bit.Off, avInsert a var Bit.On])) seed).length
          = seed.length * 2 ^ vs.length by
      obtain ⟨h1, h2, h3⟩ := h rest [[(a, Bit.Off)], [(a, Bit.On)]] [a]
        (by intro x hx; rcases List.mem_cons.mp hx with hx | hx
            · rw [hx]; rfl
            · rw [List.mem_singleton.mp hx]; rfl)
        (by refine List.pairwise_cons.mpr ⟨fun x hx => ?_, List.pairwise_singleton _ _⟩
            rw [List.mem_singleton.mp hx]
            intro hcontra
            rw [List.cons.injEq, Prod.mk.injEq] at hcontra
            exact absurd hcontra.1.2 (by intro hb; cases hb))
        (by intro v hv k hk
            rw [List.mem_singleton.mp hk]
            exact hsorted.1 v hv)
        hsorted.2
      refine ⟨fun x hx => by rw [h1 x hx]; rfl, h2, ?_⟩
      rw [h3]
      simp only [List.length_cons, List.length_singleton]
      rw [pow_succ]
      ring_nf
      simp
    intro vs
    induction vs with
    | nil =>
      intro seed keys h1 h2 _ _
      exact ⟨by simpa using h1, h2, by simp⟩
    | cons v vs ih =>
      intro seed keys h1 h2 h3 h4
      rw [List.pairwise_cons] at h4
      obtain ⟨d1, d2, d3⟩ := enum_double_spec seed v keys h1
        (fun k hk => h3 v (by simp) k hk) h2
      rw [List.foldl_cons]
      obtain ⟨r1, r2, r3⟩ := ih _ (keys ++ [v]) d1 d2
        (by intro w hw k hk
            rcases List.mem_append.mp hk with hk | hk
            · exact lt_trans (h3 v (by simp) k hk) (h4.1 w hw)
            · rw [List.mem_singleton.mp hk]
              exact h4.1 w hw)
        h4.2
      refine ⟨fun x hx => by rw [r1 x hx, List.append_assoc]; rfl, r2, ?_⟩
      rw [r3, d3]
      rw [List.length_cons, pow_succ]
      ring



/-! ## Satisfaction of the linear system is preserved backwards through the
row operations of elimination -/

theorem av_neq_lookup {a b : AV} (hk : avKeys a = avKeys b) (hnd : (avKeys a).Nodup)
    (h : a ≠ b) : ∃ x, avLookup a x ≠ avLookup b x := by
  by_contra hc
  push_neg at hc
  exact h (av_ext a b hk hnd hc)

/-- The weighted XOR sum of a row over the variable columns. -/
def dotSum (cols : Nat) (rowData : List Bit) (a : AV) : Bit :=
  ∑ c ∈ Finset.range (cols - 1), rowData.getD c Bit.Off * avLookupD a c

theorem satRowL_iff (cols : Nat) (rowData : List Bit) (a : AV) :
    satRowL cols rowData a ↔ dotSum cols rowData a = rowData.getD (cols - 1) Bit.Off :=
  Iff.rfl

theorem dotSum_addRows (cols : Nat) (t s : List Bit) (a : AV) (h0 : 0 < cols) :
    dotSum cols (addRows cols t s) a = dotSum cols t a + dotSum cols s a := by
  rw [dotSum, dotSum, dotSum, ← Finset.sum_add_distrib]
  apply Finset.sum_congr rfl
  intro c hc
  rw [Finset.mem_range] at hc
  rw [addRows_getD _ _ (by omega), Bit.add_mul]

/-- XOR-cancellation: a row satisfying both the sum row and one summand
satisfies the other summand. -/
theorem satRowL_of_addRows {cols : Nat} {t s : List Bit} {a : AV} (h0 : 0 < cols)
    (hadd : satRowL cols (addRows cols t s) a) (hs : satRowL cols s a) :
    satRowL cols t a := by
  rw [satRowL_iff] at hadd hs ⊢
  rw [dotSum_addRows cols t s a h0] at hadd
  have hconst : (addRows cols t s).getD (cols - 1) Bit.Off
      = t.getD (cols - 1) Bit.Off + s.getD (cols - 1) Bit.Off :=
    addRows_getD _ _ (by omega)
  rw [hconst] at hadd
  calc dotSum cols t a
      = dotSum cols t a + dotSum cols s a + dotSum cols s a :=
        (Bit.add_add_cancel _ _).symm
    _ = t.getD (cols - 1) Bit.Off + s.getD (cols - 1) Bit.Off + dotSum cols s a := by
        rw [hadd]
    _ = t.getD (cols - 1) Bit.Off + s.getD (cols - 1) Bit.Off + s.getD (cols - 1) Bit.Off := by
        rw [hs]
    _ = t.getD (cols - 1) Bit.Off := Bit.add_add_cancel _ _

theorem elementary_valid (m : Matrix) (s t : Nat) (hv : m.Valid) (_ht : t < m.rows) :
    (m.elementary_add_row_to s t).Valid := by
  rw [Matrix.valid_iff] at hv ⊢
  obtain ⟨h1, h2, h3, h4⟩ := hv
  refine ⟨h1, h2, (elementary_data_length m s t).trans h3, ?_⟩
  intro r hr
  rw [elementary_rows] at hr
  by_cases hrt : r = t
  · rw [hrt, elementary_row_target m s t (by omega), elementary_cols]
    exact addRows_length _ _ _
  · rw [elementary_row_other m s t r hrt, elementary_cols]
    exact h4 r hr

/-- Any assignment satisfying the system after an elementary row addition
satisfies the system before it. -/
theorem satAll_elementary {m : Matrix} {s t : Nat} {a : AV} (hv : m.Valid)
    (hst : s ≠ t) (ht : t < m.rows) (hs : s < m.rows)
    (h : SatAll (m.elementary_add_row_to s t) a) : SatAll m a := by
  obtain ⟨hv1, hv2, hv3, -⟩ := id hv
  intro rowData hmem
  rcases List.mem_iff_getElem.mp hmem with ⟨r, hr, hreq⟩
  have hrowr : m.row r = rowData := by
    rw [Matrix.row, List.getD_eq_getElem _ _ hr, hreq]
  have hmem' : ∀ j, j < m.rows → j ≠ t →
      m.row j ∈ (m.elementary_add_row_to s t).data := by
    intro j hj hjt
    have hjlen : j < (m.elementary_add_row_to s t).data.length := by
      rw [elementary_data_length]
      omega
    rw [← elementary_row_other m s t j hjt, Matrix.row, List.getD_eq_getElem _ _ hjlen]
    exact List.getElem_mem _
  by_cases hrt : r = t
  · -- the target row: recover it from the summed row and the source row
    have hsum : satRowL m.cols (addRows m.cols (m.row t) (m.row s)) a := by
      have hmemsum : addRows m.cols (m.row t) (m.row s)
          ∈ (m.elementary_add_row_to s t).data := by
        have htlen : t < (m.elementary_add_row_to s t).data.length := by
          rw [elementary_data_length]
          omega
        rw [← elementary_row_target m s t (by omega), Matrix.row,
          List.getD_eq_getElem _ _ htlen]
        exact List.getElem_mem _
      exact h _ hmemsum
    have hsrc : satRowL m.cols (m.row s) a := h _ (hmem' s hs hst)
    rw [← hrowr, hrt]
    exact satRowL_of_addRows hv2 hsum hsrc
  · rw [← hrowr]
    exact h _ (hmem' r (by omega) hrt)

theorem decimateStep_valid (src col : Nat) (acc : Matrix) (r : Nat) (hv : acc.Valid)
    (hr : r < acc.rows) : (decimateStep src col acc r).Valid := by
  rw [decimateStep]
  split
  · exact hv
  · split
    · exact elementary_valid acc src r hv hr
    · exact hv

theorem satAll_decimateStep {src col : Nat} {acc : Matrix} {r : Nat} {a : AV}
    (hv : acc.Valid) (hr : r < acc.rows) (hsrc : src < acc.rows)
    (h : SatAll (decimateStep src col acc r) a) : SatAll acc a := by
  rw [decimateStep] at h
  split at h
  · exact h
  · split at h
    · exact satAll_elementary hv (by rename_i hne _; exact fun hc => hne hc.symm) hr hsrc h
    · exact h

/-- Any assignment satisfying the system after a column decimation satisfies
the system before it. -/
theorem satAll_decimate {m : Matrix} {src col : Nat} {a : AV} (hv : m.Valid)
    (hsrc : src < m.rows)
    (h : SatAll (m.decimate_column_with_row src col) a) : SatAll m a := by
  rw [Matrix.decimate_column_with_row] at h
  have main : ∀ (l : List Nat) (acc : Matrix), acc.Valid → acc.rows = m.rows →
      (∀ r ∈ l, r < m.rows) →
      SatAll (l.foldl (decimateStep src col) acc) a → SatAll acc a := by
    intro l
    induction l with
    | nil => intro acc _ _ _ h; exact h
    | cons r l ih =>
      intro acc hacc haccrows hl h
      rw [List.foldl_cons] at h
      have hstep := ih (decimateStep src col acc r)
        (decimateStep_valid src col acc r hacc (by rw [haccrows]; exact hl r (by simp)))
        (by rw [decimateStep_rows, haccrows]) (fun x hx => hl x (by simp [hx])) h
      exact satAll_decimateStep hacc (by rw [haccrows]; exact hl r (by simp))
        (by omega) hstep
  exact main (List.range m.rows) m hv rfl (fun r hr => List.mem_range.mp hr) h

/-- Sorting the rows neither gains nor loses satisfying assignments. -/
theorem satAll_sortMatrix {m : Matrix} {a : AV} (h : SatAll m.sortMatrix a) : SatAll m a := by
  intro rowData hmem
  exact h rowData ((sortRows_perm m.cols m.data).mem_iff.mpr hmem)

/-- Any assignment satisfying the system at the end of the elimination loop
satisfies the system at its start. -/
theorem satAll_elimLoopF : ∀ (fuel : Nat) (m : Matrix) (row col : Nat) (a : AV),
    m.Valid → row < m.rows →
    SatAll (elimLoopF fuel m row col) a → SatAll m a := by
  intro fuel
  induction fuel with
  | zero => intro m row col a _ _ h; exact h
  | succ fuel ih =>
    intro m row col a hv hrow h
    cases hE : m.entry row col with
    | Off =>
      simp only [elimLoopF, hE] at h
      split at h
      · exact h
      · exact ih m row (col + 1) a hv hrow h
    | On =>
      simp only [elimLoopF, hE] at h
      have hv' : ((m.decimate_column_with_row row col).sortMatrix).Valid :=
        sortMatrix_valid _ (decimate_valid _ _ _ hv)
      split at h
      · exact satAll_decimate hv hrow (satAll_sortMatrix h)
      · have := ih _ (row + 1) col a hv'
          (by rw [sortMatrix_rows, decimate_rows]; omega) h
        exact satAll_decimate hv hrow (satAll_sortMatrix this)

/-- Any assignment satisfying the eliminated system satisfies the original
system: elimination only permutes rows and adds rows onto other rows, both of
which are solution-preserving in both directions over GF(2). -/
theorem satAll_eliminate {m : Matrix} {a : AV} (hv : m.Valid)
    (h : SatAll m.eliminate a) : SatAll m a := by
  rw [Matrix.eliminate] at h
  obtain ⟨hv1, -, -, -⟩ := id hv
  exact satAll_sortMatrix (satAll_elimLoopF _ _ 0 0 a (sortMatrix_valid m hv)
    (by rw [sortMatrix_rows]; omega) h)



/-! ## Backfed assignments satisfy the eliminated system -/

theorem foldl_add_eq_sum (l : List Nat) (f : Nat → Bit) (init : Bit) :
    l.foldl (fun v t => v + f t) init = init + (l.map f).sum := by
  induction l generalizing init with
  | nil => simp
  | cons t l ih =>
    rw [List.foldl_cons, ih, List.map_cons, List.sum_cons, add_assoc]

/-- On a valid RREF augmented matrix with no infeasible row, backfeeding any
valuation of exactly the free variables yields an assignment satisfying every
row of the matrix. -/
theorem satAll_backfeed (E : Matrix) (hv : E.Valid) (hrref : IsRREF E)
    (h2 : 2 ≤ E.cols)
    (hnoinf : ∀ r < E.rows, get_leading_column (E.row r) ≠ some (E.cols - 1))
    (val : AV) (hvalkeys : avKeys val = (Equations.new E).free_vars) :
    SatAll E ((Equations.new E).backfeed val) := by
  obtain ⟨hv1, hv2, hv3, -⟩ := id hv
  obtain ⟨hnlc_sub, hnlc_sorted, -⟩ := non_leading_columns_spec E hv hrref
  set fv := (Equations.new E).free_vars with hfv
  have hfveq : fv = E.non_leading_columns.filter (fun c => c ≠ E.cols - 1) := rfl
  have hfv_sub : ∀ c ∈ fv, c < E.cols - 1 ∧ ¬ IsPivotCol E c := by
    intro c hc
    rw [hfveq, List.mem_filter] at hc
    obtain ⟨h1, h3⟩ := hnlc_sub c hc.1
    have : c ≠ E.cols - 1 := by simpa using hc.2
    exact ⟨by omega, h3⟩
  have hfv_sorted : fv.Pairwise (· < ·) := by
    rw [hfveq]
    exact List.Pairwise.filter _ hnlc_sorted
  have hfv_nodup : fv.Nodup := hfv_sorted.imp (fun h => Nat.ne_of_lt h)
  have hvalnd : (avKeys val).Nodup := by
    rw [hvalkeys]
    exact hfv_nodup
  have heqns : (Equations.new E).eqns = buildEqnsF E.rows E fv 0 := rfl
  have heqns_mem := buildEqns_mem E fv hv hrref E.rows 0 (by omega)
  have heqns_nodup : ((Equations.new E).eqns.map Prod.fst).Nodup := by
    rw [heqns]
    exact buildEqns_keys_nodup E fv hv hrref E.rows 0 (by omega)
  -- every key of the equation map is a pivot column
  have hkeys_pivot : ∀ x ∈ (Equations.new E).eqns.map Prod.fst, IsPivotCol E x := by
    intro x hx
    rcases List.mem_map.mp hx with ⟨⟨L, q⟩, hLq, hfst⟩
    rw [heqns] at hLq
    obtain ⟨r, -, hr2, hlead, -, -⟩ := (heqns_mem L q).mp hLq
    simp only at hfst
    exact ⟨r, hr2, by rw [hlead, hfst]⟩
  intro rowData hmemrow
  rcases List.mem_iff_getElem.mp hmemrow with ⟨r, hrlen, hreq⟩
  have hr : r < E.rows := by omega
  have hrowdef : E.row r = rowData := by
    rw [Matrix.row, List.getD_eq_getElem _ _ hrlen, hreq]
  have hrowlen : rowData.length = E.cols := by
    rw [← hrowdef]
    exact Matrix.row_length hv hr
  set A := (Equations.new E).backfeed val with hA
  cases hglc : get_leading_column rowData with
  | none =>
    -- zero rows are trivially satisfied
    rw [satRowL_iff, dotSum]
    have hzero : ∀ j, rowData.getD j Bit.Off = Bit.Off := by
      intro j
      by_cases hj : j < rowData.length
      · exact (get_leading_column_eq_none_iff rowData).mp hglc j hj
      · exact List.getD_eq_default _ _ (by omega)
    rw [hzero (E.cols - 1)]
    apply Finset.sum_eq_zero
    intro c hc
    rw [hzero c, Bit.off_mul]
    rfl
  | some L =>
    have hLlt : L < E.cols - 1 := by
      have h1 := get_leading_column_lt_length hglc
      have h3 : L ≠ E.cols - 1 := by
        intro hL
        exact hnoinf r hr (by rw [hrowdef, hglc, hL])
      omega
    have hLpivot : IsPivotCol E L := ⟨r, hr, by rw [hrowdef, hglc]⟩
    have hLnotfv : L ∉ fv := fun hmem => (hfv_sub L hmem).2 hLpivot
    set terms := fv.filter (fun c => E.entry r c = Bit.On) with hterms
    set c₀ := E.entry r (E.cols - 1) with hc₀
    have hmem_eqn : (L, (terms, c₀)) ∈ (Equations.new E).eqns := by
      rw [heqns]
      exact (heqns_mem L (terms, c₀)).mpr ⟨r, Nat.zero_le _, hr, by rw [hrowdef, hglc], by omega, rfl⟩
    -- the three lookup regimes of the backfed assignment
    have hAL : avLookupD A L = (terms.map (avLookupD val)).sum + c₀ := by
      rw [hA, avLookupD, backfeed_lookup_eqn _ val L terms c₀ heqns_nodup hmem_eqn
        (by rw [hvalkeys]; exact hLnotfv)]
      rw [Option.getD_some, foldl_add_eq_sum, Bit.off_add]
    have hAfv : ∀ x ∈ fv, avLookupD A x = avLookupD val x := by
      intro x hx
      rw [hA, avLookupD, avLookupD, backfeed_lookup_valuation _ val x hvalnd
        (by rw [hvalkeys]; exact hx)]
    have hAnone : ∀ x, x ∉ fv → ¬ IsPivotCol E x → avLookupD A x = Bit.Off := by
      intro x hx hxp
      rw [hA, avLookupD, backfeed_lookup_none _ val x (by rw [hvalkeys]; exact hx)
        (fun hmem => hxp (hkeys_pivot x hmem))]
      rfl
    -- terms are exactly the On entries of this row among the free variables
    have hterms_nodup : terms.Nodup := List.Nodup.filter _ hfv_nodup
    have hterms_sub : ∀ c ∈ terms, c ∈ Finset.range (E.cols - 1) ∧ c ≠ L ∧
        E.entry r c = Bit.On ∧ c ∈ fv := by
      intro c hc
      rw [hterms, List.mem_filter] at hc
      have hcfv := hfv_sub c hc.1
      refine ⟨Finset.mem_range.mpr hcfv.1, ?_, by simpa using hc.2, hc.1⟩
      intro hcl
      exact hcfv.2 (by rw [hcl]; exact hLpivot)
    rw [satRowL_iff, dotSum, ← hrowdef]
    -- split off the pivot term
    have hLmem : L ∈ Finset.range (E.cols - 1) := Finset.mem_range.mpr hLlt
    rw [← Finset.add_sum_erase _ _ hLmem]
    have hfL : (E.row r).getD L Bit.Off * avLookupD A L = (terms.map (avLookupD val)).sum + c₀ := by
      rw [show (E.row r).getD L Bit.Off = Bit.On from by rw [hrowdef]; exact get_leading_column_on hglc,
        Bit.on_mul, hAL]
    rw [hfL]
    -- the rest of the sum is exactly the XOR over the terms
    have hrest : (∑ c ∈ (Finset.range (E.cols - 1)).erase L,
        (E.row r).getD c Bit.Off * avLookupD A c) = (terms.map (avLookupD val)).sum := by
      rw [← Finset.sum_filter_add_sum_filter_not ((Finset.range (E.cols - 1)).erase L)
        (fun c => c ∈ terms)]
      have hz : (∑ c ∈ ((Finset.range (E.cols - 1)).erase L).filter (fun c => c ∉ terms),
          (E.row r).getD c Bit.Off * avLookupD A c) = 0 := by
        apply Finset.sum_eq_zero
        intro c hc
        rw [Finset.mem_filter, Finset.mem_erase] at hc
        obtain ⟨⟨hcL, hcrange⟩, hcnot⟩ := hc
        rw [Finset.mem_range] at hcrange
        cases hcE : E.entry r c with
        | Off =>
          rw [show (E.row r).getD c Bit.Off = E.entry r c from rfl, hcE, Bit.off_mul]
          rfl
        | On =>
          -- an `On` entry away from the pivot is at a non-pivot column
          have hcnp : ¬ IsPivotCol E c := by
            rintro ⟨r', hr', hlead'⟩
            by_cases hrr : r' = r
            · rw [hrr, hrowdef, hglc] at hlead'
              exact hcL (Option.some_injective _ hlead'.symm)
            · have := hrref.1 r' hr' c hlead' r hr (fun h => hrr h.symm)
              rw [hcE] at this
              cases this
          have hcnfv : c ∉ fv := by
            intro hcfv
            exact hcnot (by rw [hterms, List.mem_filter]; exact ⟨hcfv, by simpa using hcE⟩)
          rw [show (E.row r).getD c Bit.Off = E.entry r c from rfl, hcE, Bit.on_mul,
            hAnone c hcnfv hcnp]
          rfl
      rw [hz, add_zero]
      have hfilter : ((Finset.range (E.cols - 1)).erase L).filter (fun c => c ∈ terms)
          = terms.toFinset := by
        apply Finset.ext
        intro x
        rw [Finset.mem_filter, List.mem_toFinset, Finset.mem_erase]
        constructor
        · rintro ⟨-, hx⟩
          exact hx
        · intro hx
          obtain ⟨hx1, hx2, -, -⟩ := hterms_sub x hx
          exact ⟨⟨hx2, hx1⟩, hx⟩
      rw [hfilter]
      apply Finset.sum_congr rfl ?_ |>.trans (List.sum_toFinset _ hterms_nodup)
      intro c hc
      rw [List.mem_toFinset] at hc
      obtain ⟨-, -, hcOn, hcfv⟩ := hterms_sub c hc
      rw [show (E.row r).getD c Bit.Off = E.entry r c from rfl, hcOn, Bit.on_mul, hAfv c hcfv]
    rw [hrest]
    -- XOR-cancel the two copies of the term sum
    rw [show ((terms.map (avLookupD val)).sum + c₀ + (terms.map (avLookupD val)).sum
          = c₀) from by
      rw [add_comm _ c₀, add_assoc, Bit.add_self, Bit.add_off]]
    rfl



/-! ## Claim-level helper lemmas -/

/-- Every result of `enumerate_all_results` is the backfeed of a valuation
whose keys are exactly the free variables. -/
theorem enumerate_all_results_mem (e : Equations) (hfv : e.free_vars.Pairwise (· < ·)) :
    ∀ A ∈ e.enumerate_all_results, ∃ val, avKeys val = e.free_vars ∧ A = e.backfeed val := by
  intro A hA
  obtain ⟨s1, s2, s3⟩ := enumerate_all_assignments_spec e.free_vars hfv
  simp only [Equations.enumerate_all_results] at hA
  split at hA
  · rcases List.mem_map.mp hA with ⟨val, hval, hback⟩
    exact ⟨val, s1 val hval, hback.symm⟩
  · rename_i hnot
    have hempty : e.free_vars = [] := by
      by_contra hne
      have hlen : e.free_vars.length ≠ 0 := fun h => hne (List.eq_nil_of_length_eq_zero h)
      rw [s3, if_neg hlen] at hnot
      exact hnot (Nat.pos_pow_of_pos _ (by omega))
    have hAeq : A = e.backfeed [] := List.mem_singleton.mp hA
    exact ⟨[], by rw [hempty]; rfl, hAeq⟩

/-- A decidable reformulation of `IsRREF` for valid matrices (used to check
concrete matrices). -/
theorem isRREF_iff (m : Matrix) (hv : m.Valid) :
    IsRREF m ↔
      ((∀ r, r < m.rows → ∀ j, j < m.rows → ∀ L, L ≤ m.cols →
          (j = r ∨ get_leading_column (m.row r) ≠ some L ∨ m.entry j L = Bit.Off)) ∧
       (∀ j, j < m.rows → ∀ i, i ≤ j → mkey m i ≤ mkey m j)) := by
  constructor
  · rintro ⟨h1, h2⟩
    refine ⟨fun r hr j hj L _ => ?_, fun j hj i hij => h2 i j hij hj⟩
    by_cases hjr : j = r
    · exact Or.inl hjr
    · by_cases hL : get_leading_column (m.row r) = some L
      · exact Or.inr (Or.inr (h1 r hr L hL j hj hjr))
      · exact Or.inr (Or.inl hL)
  · rintro ⟨h1, h2⟩
    refine ⟨fun r hr L hL j hj hjr => ?_, fun i j hij hj => h2 j hj i hij⟩
    have hLle : L ≤ m.cols := by
      have := get_leading_column_lt_length hL
      have := Matrix.row_length hv hr
      omega
    rcases h1 r hr j hj L hLle with h | h | h
    · exact absurd h hjr
    · exact absurd hL h
    · exact h

/-! ## The claims -/

/-- The concrete infeasible system `0·x₀ = 1` (a single row whose only `On`
entry is the constant column). -/
def infeasibleExample : Matrix := ⟨1, 2, [[Bit.Off, Bit.On]]⟩

/-- **C1.** The claim states that for every augmented matrix whose elimination
produces an infeasible row (leading column equal to the constant column), the
Equations layer reports zero solutions and `enumerate_all_results()` returns
an empty result set.  The code does not do this: `Equations::new` silently
*skips* rows whose leading column is the constant column, so on the concrete
infeasible system `0·x₀ = 1` the eliminated matrix has an infeasible row, yet
`enumerate_all_results()` fabricates two assignments instead of returning an
empty set.  (The spec itself flags this as a possible latent bug, so this is
recorded as a code bug with this theorem evaluating the code at the failing
input.) -/
theorem c1_infeasible_fabricates_solutions :
    infeasibleExample.Valid ∧
    get_leading_column (infeasibleExample.eliminate.row 0)
      = some (infeasibleExample.eliminate.cols - 1) ∧
    (Equations.new infeasibleExample.eliminate).enumerate_all_results.length = 2 := by
  decide

/-- An infeasible 2×3 system `x₀ = 0 ∧ 0 = 1`, already in RREF. -/
def c2Example : Matrix :=
  ⟨2, 3, [[Bit.On, Bit.Off, Bit.Off], [Bit.Off, Bit.Off, Bit.On]]⟩

/-- **C2 (counterexample).** The claim, as stated for *every* valid augmented
matrix, is false: on the infeasible system `x₀ = 0 ∧ 0 = 1` the code produces
two assignments, and none of them satisfies the original second equation
(whose weighted XOR sum is `Off` while its constant entry is `On`). -/
theorem c2_counterexample :
    c2Example.Valid ∧
    0 < (Equations.new c2Example.eliminate).enumerate_all_results.length ∧
    ∀ A ∈ (Equations.new c2Example.eliminate).enumerate_all_results,
      ¬ satRowL c2Example.cols (c2Example.row 1) A := by
  decide

/-- **C2 (amended).** For every valid augmented matrix `M` (with at least one
variable column) whose *eliminated* form contains no infeasible row (no row
with leading column equal to the constant column), every full assignment
produced by `enumerate_all_results()` on the Equations built from the
eliminated copy satisfies every original pre-elimination equation: for each
row of `M`, the XOR over all variable columns of (coefficient AND the
assignment's value) equals that row's constant-column entry. -/
theorem c2_backfeed_correct (M : Matrix) (hv : M.Valid) (h2 : 2 ≤ M.cols)
    (hnoinf : ∀ r < M.eliminate.rows,
      get_leading_column (M.eliminate.row r) ≠ some (M.eliminate.cols - 1)) :
    ∀ A ∈ (Equations.new M.eliminate).enumerate_all_results,
      ∀ r < M.rows, satRowL M.cols (M.row r) A := by
  intro A hA r hr
  set E := M.eliminate with hE
  have hEv : E.Valid := eliminate_valid M hv
  have hErref : IsRREF E := eliminate_isRREF M hv
  have hEcols : E.cols = M.cols := eliminate_cols M
  obtain ⟨-, hnlc_sorted, -⟩ := non_leading_columns_spec E hEv hErref
  have hfv_sorted : (Equations.new E).free_vars.Pairwise (· < ·) :=
    List.Pairwise.filter _ hnlc_sorted
  obtain ⟨val, hvalkeys, hAval⟩ := enumerate_all_results_mem (Equations.new E) hfv_sorted A hA
  have hsatE : SatAll E A := by
    rw [hAval]
    exact satAll_backfeed E hEv hErref (by omega) hnoinf val hvalkeys
  have hsatM : SatAll M A := satAll_eliminate hv hsatE
  have hv3 : M.data.length = M.rows := ((Matrix.valid_iff M).mp hv).2.2.1
  have hmem : M.row r ∈ M.data := by
    rw [Matrix.row, List.getD_eq_getElem _ _ (by omega)]
    exact List.getElem_mem _
  exact hsatM _ hmem

/-- Witness for **C2 (amended)**, at the concrete system `x₀ = 1`: the
hypotheses hold and the produced assignments satisfy the single original
equation. -/
theorem c2_backfeed_correct_witness :
    (⟨1, 2, [[Bit.On, Bit.On]]⟩ : Matrix).Valid ∧
    (∀ A ∈ (Equations.new (⟨1, 2, [[Bit.On, Bit.On]]⟩ : Matrix).eliminate).enumerate_all_results,
      ∀ r < (1 : Nat), satRowL 2 ((⟨1, 2, [[Bit.On, Bit.On]]⟩ : Matrix).row r) A) :=
  ⟨by decide, c2_backfeed_correct ⟨1, 2, [[Bit.On, Bit.On]]⟩ (by decide) (by decide) (by decide)⟩



/-- **C3.** For every valid matrix `M`, after `eliminate(M)` completes:
(i) every non-zero row's leading entry is the only `On` entry in its column
across all rows; (ii) distinct non-zero rows have distinct leading columns;
(iii) leading-column keys are non-decreasing in row order; and (iv) all zero
rows come after all non-zero rows. -/
theorem c3_eliminate_rref (M : Matrix) (hv : M.Valid) :
    (∀ r < M.eliminate.rows, ∀ L, get_leading_column (M.eliminate.row r) = some L →
        ∀ j < M.eliminate.rows, j ≠ r → M.eliminate.entry j L = Bit.Off) ∧
    (∀ r < M.eliminate.rows, ∀ j < M.eliminate.rows, r ≠ j →
        ∀ L L', get_leading_column (M.eliminate.row r) = some L →
          get_leading_column (M.eliminate.row j) = some L' → L ≠ L') ∧
    (∀ r j, r ≤ j → j < M.eliminate.rows →
        sortKey M.eliminate.cols (M.eliminate.row r)
          ≤ sortKey M.eliminate.cols (M.eliminate.row j)) ∧
    (∀ r j, r < j → j < M.eliminate.rows → M.eliminate.is_row_zero r = true →
        M.eliminate.is_row_zero j = true) := by
  obtain ⟨h1, h2⟩ := eliminate_isRREF M hv
  have hEv : M.eliminate.Valid := eliminate_valid M hv
  refine ⟨h1, ?_, h2, ?_⟩
  · intro r hr j hj hrj L L' hL hL' hLL
    have := h1 r hr L hL j hj (fun h => hrj h.symm)
    rw [show M.eliminate.entry j L = (M.eliminate.row j).getD L Bit.Off from rfl] at this
    rw [← hLL] at hL'
    rw [get_leading_column_on hL'] at this
    cases this
  · intro r j hrj hj hr0
    have hrlt : r < M.eliminate.rows := by omega
    have hkeyr : mkey M.eliminate r = M.eliminate.cols := by
      rw [mkey, sortKey, (is_row_zero_iff _ _).mp hr0]
      rfl
    have hle := h2 r j (by omega) hj
    have hkeyj : mkey M.eliminate j = M.eliminate.cols := by
      have := sortKey_le M.eliminate.cols (M.eliminate.row j) (Matrix.row_length hEv hj)
      simp only [mkey] at hle hkeyr ⊢
      omega
    rw [is_row_zero_iff]
    rw [← sortKey_eq_cols_iff M.eliminate.cols (M.eliminate.row j) (Matrix.row_length hEv hj)]
    rw [mkey] at hkeyj
    exact hkeyj

/-- Witness for **C3** on the concrete 2×3 system used throughout. -/
theorem c3_eliminate_rref_witness :
    (⟨2, 3, [[Bit.On, Bit.On, Bit.Off], [Bit.On, Bit.Off, Bit.On]]⟩ : Matrix).Valid ∧
    ((∀ r < (⟨2, 3, [[Bit.On, Bit.On, Bit.Off], [Bit.On, Bit.Off, Bit.On]]⟩ : Matrix).eliminate.rows,
      ∀ L, get_leading_column
            ((⟨2, 3, [[Bit.On, Bit.On, Bit.Off], [Bit.On, Bit.Off, Bit.On]]⟩ : Matrix).eliminate.row r)
          = some L →
        ∀ j < (⟨2, 3, [[Bit.On, Bit.On, Bit.Off], [Bit.On, Bit.Off, Bit.On]]⟩ : Matrix).eliminate.rows,
          j ≠ r →
          (⟨2, 3, [[Bit.On, Bit.On, Bit.Off], [Bit.On, Bit.Off, Bit.On]]⟩ : Matrix).eliminate.entry j L
            = Bit.Off) ∧
     (∀ r < (⟨2, 3, [[Bit.On, Bit.On, Bit.Off], [Bit.On, Bit.Off, Bit.On]]⟩ : Matrix).eliminate.rows,
      ∀ j < (⟨2, 3, [[Bit.On, Bit.On, Bit.Off], [Bit.On, Bit.Off, Bit.On]]⟩ : Matrix).eliminate.rows,
        r ≠ j → ∀ L L',
          get_leading_column
              ((⟨2, 3, [[Bit.On, Bit.On, Bit.Off], [Bit.On, Bit.Off, Bit.On]]⟩ : Matrix).eliminate.row r)
            = some L →
          get_leading_column
              ((⟨2, 3, [[Bit.On, Bit.On, Bit.Off], [Bit.On, Bit.Off, Bit.On]]⟩ : Matrix).eliminate.row j)
            = some L' → L ≠ L') ∧
     (∀ r j, r ≤ j →
        j < (⟨2, 3, [[Bit.On, Bit.On, Bit.Off], [Bit.On, Bit.Off, Bit.On]]⟩ : Matrix).eliminate.rows →
        sortKey (⟨2, 3, [[Bit.On, Bit.On, Bit.Off], [Bit.On, Bit.Off, Bit.On]]⟩ : Matrix).eliminate.cols
            ((⟨2, 3, [[Bit.On, Bit.On, Bit.Off], [Bit.On, Bit.Off, Bit.On]]⟩ : Matrix).eliminate.row r)
          ≤ sortKey (⟨2, 3, [[Bit.On, Bit.On, Bit.Off], [Bit.On, Bit.Off, Bit.On]]⟩ : Matrix).eliminate.cols
            ((⟨2, 3, [[Bit.On, Bit.On, Bit.Off], [Bit.On, Bit.Off, Bit.On]]⟩ : Matrix).eliminate.row j)) ∧
     (∀ r j, r < j →
        j < (⟨2, 3, [[Bit.On, Bit.On, Bit.Off], [Bit.On, Bit.Off, Bit.On]]⟩ : Matrix).eliminate.rows →
        (⟨2, 3, [[Bit.On, Bit.On, Bit.Off], [Bit.On, Bit.Off, Bit.On]]⟩ : Matrix).eliminate.is_row_zero r
          = true →
        (⟨2, 3, [[Bit.On, Bit.On, Bit.Off], [Bit.On, Bit.Off, Bit.On]]⟩ : Matrix).eliminate.is_row_zero j
          = true)) :=
  ⟨by decide, c3_eliminate_rref ⟨2, 3, [[Bit.On, Bit.On, Bit.Off], [Bit.On, Bit.Off, Bit.On]]⟩ (by decide)⟩

/-- A 1×3 RREF matrix (one equation `x₀ = 0` over two variables) on which
`non_leading_columns()` returns nothing. -/
def c4Example : Matrix := ⟨1, 3, [[Bit.On, Bit.Off, Bit.Off]]⟩

/-- **C4 (counterexample).** The claim, for *every* RREF augmented matrix, is
false: on the 1×3 RREF matrix `x₀ = 0` (variables `x₀, x₁`, constant column 2)
the cursor walk of `non_leading_columns()` breaks as soon as stepping down
from the last row fails, so it returns `[]` even though column 1 contains no
leading 1; variable 1 then lies in neither the free-variable set nor the
dependent-variable key set. -/
theorem c4_counterexample :
    c4Example.Valid ∧ IsRREF c4Example ∧
    1 < c4Example.cols - 1 ∧
    c4Example.non_leading_columns = [] ∧
    1 ∉ (Equations.new c4Example).free_vars ∧
    1 ∉ (Equations.new c4Example).eqns.map Prod.fst := by
  refine ⟨by decide, ?_, by decide, by decide, by decide, by decide⟩
  exact (isRREF_iff c4Example (by decide)).mpr (by decide)

/-- **C4 (amended).** For every valid augmented matrix in reduced row-echelon
form with at least one variable column, *and whose last row is either a zero
row or has its leading column within the last two columns* (this always holds
for the square `n`-variable, `n`-row systems the solver builds, and rules out
the truncated cursor walk of the counterexample), every variable index lies in
exactly one of the free-variable set and the dependent-variable key set. -/
theorem c4_partition (m : Matrix) (hv : m.Valid) (hrref : IsRREF m) (_h2 : 2 ≤ m.cols)
    (hlast : m.cols - 2 ≤ sortKey m.cols (m.row (m.rows - 1))) :
    ∀ v < m.cols - 1,
      (v ∈ (Equations.new m).free_vars ∧ v ∉ (Equations.new m).eqns.map Prod.fst) ∨
      (v ∉ (Equations.new m).free_vars ∧ v ∈ (Equations.new m).eqns.map Prod.fst) := by
  intro v hvlt
  obtain ⟨hnlc_sub, -, hnlc_cover⟩ := non_leading_columns_spec m hv hrref
  set fv := (Equations.new m).free_vars with hfvdef
  have hfveq : fv = m.non_leading_columns.filter (fun c => c ≠ m.cols - 1) := rfl
  have heqns_mem := buildEqns_mem m fv hv hrref m.rows 0 (by omega)
  have hkeys : ∀ x, x ∈ (Equations.new m).eqns.map Prod.fst ↔
      (IsPivotCol m x ∧ x ≠ m.cols - 1) := by
    intro x
    constructor
    · intro hx
      rcases List.mem_map.mp hx with ⟨⟨L, q⟩, hLq, hfst⟩
      simp only at hfst
      obtain ⟨r, -, hr2, hlead, hneq, -⟩ := (heqns_mem L q).mp hLq
      exact ⟨⟨r, hr2, by rw [hlead, hfst]⟩, by rw [← hfst]; exact hneq⟩
    · rintro ⟨⟨r, hr, hlead⟩, hneq⟩
      have : (x, (fv.filter (fun c => m.entry r c = Bit.On), m.entry r (m.cols - 1)))
          ∈ (Equations.new m).eqns :=
        (heqns_mem x _).mpr ⟨r, Nat.zero_le _, hr, hlead, hneq, rfl⟩
      exact List.mem_map.mpr ⟨_, this, rfl⟩
  have hfv_mem : ∀ x, x < m.cols - 1 → (x ∈ fv ↔ ¬ IsPivotCol m x) := by
    intro x hx
    rw [hfveq, List.mem_filter]
    constructor
    · rintro ⟨hmem, -⟩
      exact (hnlc_sub x hmem).2
    · intro hnp
      refine ⟨hnlc_cover hlast x hx hnp, by simp; omega⟩
  by_cases hp : IsPivotCol m v
  · right
    exact ⟨fun hmem => ((hfv_mem v hvlt).mp hmem) hp, (hkeys v).mpr ⟨hp, by omega⟩⟩
  · left
    exact ⟨(hfv_mem v hvlt).mpr hp, fun hmem => hp ((hkeys v).mp hmem).1⟩

/-- Witness for **C4 (amended)** on a 2×3 RREF matrix with a zero row:
variable 0 is dependent, variable 1 is free. -/
theorem c4_partition_witness :
    ((⟨2, 3, [[Bit.On, Bit.On, Bit.Off], [Bit.Off, Bit.Off, Bit.Off]]⟩ : Matrix).Valid ∧
     2 ≤ (⟨2, 3, [[Bit.On, Bit.On, Bit.Off], [Bit.Off, Bit.Off, Bit.Off]]⟩ : Matrix).cols ∧
     (⟨2, 3, [[Bit.On, Bit.On, Bit.Off], [Bit.Off, Bit.Off, Bit.Off]]⟩ : Matrix).cols - 2 ≤
       sortKey (⟨2, 3, [[Bit.On, Bit.On, Bit.Off], [Bit.Off, Bit.Off, Bit.Off]]⟩ : Matrix).cols
         ((⟨2, 3, [[Bit.On, Bit.On, Bit.Off], [Bit.Off, Bit.Off, Bit.Off]]⟩ : Matrix).row
           ((⟨2, 3, [[Bit.On, Bit.On, Bit.Off], [Bit.Off, Bit.Off, Bit.Off]]⟩ : Matrix).rows - 1))) ∧
    (∀ v < (⟨2, 3, [[Bit.On, Bit.On, Bit.Off], [Bit.Off, Bit.Off, Bit.Off]]⟩ : Matrix).cols - 1,
      (v ∈ (Equations.new ⟨2, 3, [[Bit.On, Bit.On, Bit.Off], [Bit.Off, Bit.Off, Bit.Off]]⟩).free_vars ∧
        v ∉ (Equations.new ⟨2, 3, [[Bit.On, Bit.On, Bit.Off], [Bit.Off, Bit.Off, Bit.Off]]⟩).eqns.map
          Prod.fst) ∨
      (v ∉ (Equations.new ⟨2, 3, [[Bit.On, Bit.On, Bit.Off], [Bit.Off, Bit.Off, Bit.Off]]⟩).free_vars ∧
        v ∈ (Equations.new ⟨2, 3, [[Bit.On, Bit.On, Bit.Off], [Bit.Off, Bit.Off, Bit.Off]]⟩).eqns.map
          Prod.fst)) :=
  ⟨⟨by decide, by decide, by decide⟩,
    c4_partition ⟨2, 3, [[Bit.On, Bit.On, Bit.Off], [Bit.Off, Bit.Off, Bit.Off]]⟩
      (by decide) ((isRREF_iff _ (by decide)).mpr (by decide)) (by decide) (by decide)⟩



/-- **C5.** For every `Equations` instance with `k` free variables (a set,
represented by its sorted element list), `enumerate_all_results()` returns
exactly `2^k` full assignments when `k ≥ 1`, no two of which are equal, and
exactly one assignment (the backfeed of the empty partial assignment) when
`k = 0`. -/
theorem c5_enumeration_count (e : Equations) (hfv : e.free_vars.Pairwise (· < ·)) :
    (e.free_vars.length = 0 →
      e.enumerate_all_results = [e.backfeed []] ∧ e.enumerate_all_results.length = 1) ∧
    (1 ≤ e.free_vars.length →
      e.enumerate_all_results.length = 2 ^ e.free_vars.length ∧
      e.enumerate_all_results.Pairwise (fun a b => a ≠ b)) := by
  obtain ⟨s1, s2, s3⟩ := enumerate_all_assignments_spec e.free_vars hfv
  constructor
  · intro hk
    have hempty : enumerate_all_assignments e.free_vars = [] :=
      List.eq_nil_of_length_eq_zero (by rw [s3, if_pos hk])
    simp only [Equations.enumerate_all_results, hempty]
    exact ⟨rfl, rfl⟩
  · intro hk
    have hlenpos : 0 < (enumerate_all_assignments e.free_vars).length := by
      rw [s3, if_neg (by omega)]
      exact Nat.pos_pow_of_pos _ (by omega)
    simp only [Equations.enumerate_all_results, if_pos hlenpos]
    constructor
    · rw [List.length_map, s3, if_neg (by omega)]
    · rw [List.pairwise_map]
      apply List.Pairwise.imp_of_mem ?_ s2
      intro a b ha hb hab
      have hka : avKeys a = e.free_vars := s1 a ha
      have hkb : avKeys b = e.free_vars := s1 b hb
      have hnd : (avKeys a).Nodup := by
        rw [hka]
        exact hfv.imp (fun h => Nat.ne_of_lt h)
      obtain ⟨x, hx⟩ := av_neq_lookup (hka.trans hkb.symm) hnd hab
      have hxmem : x ∈ avKeys a := by
        by_contra hxa
        have hxb : x ∉ avKeys b := by
          rw [hkb, ← hka]
          exact hxa
        rw [(avLookup_eq_none_iff a x).mpr hxa, (avLookup_eq_none_iff b x).mpr hxb] at hx
        exact hx rfl
      intro hcontra
      apply hx
      rw [← backfeed_lookup_valuation e a x hnd hxmem,
        ← backfeed_lookup_valuation e b x (by rw [hkb, ← hka]; exact hnd)
          (by rw [hkb, ← hka]; exact hxmem), hcontra]

/-- Witness for **C5** with two free variables and one dependent variable. -/
theorem c5_enumeration_count_witness :
    (([0, 2] : List Nat).Pairwise (· < ·)) ∧
    ((({ free_vars := [0, 2], eqns := [(1, ([0], Bit.On))] } : Equations).free_vars.length = 0 →
      ({ free_vars := [0, 2], eqns := [(1, ([0], Bit.On))] } : Equations).enumerate_all_results
          = [({ free_vars := [0, 2], eqns := [(1, ([0], Bit.On))] } : Equations).backfeed []] ∧
      ({ free_vars := [0, 2], eqns := [(1, ([0], Bit.On))] } : Equations).enumerate_all_results.length
          = 1) ∧
    (1 ≤ ({ free_vars := [0, 2], eqns := [(1, ([0], Bit.On))] } : Equations).free_vars.length →
      ({ free_vars := [0, 2], eqns := [(1, ([0], Bit.On))] } : Equations).enumerate_all_results.length
          = 2 ^ ({ free_vars := [0, 2], eqns := [(1, ([0], Bit.On))] } : Equations).free_vars.length ∧
      ({ free_vars := [0, 2], eqns := [(1, ([0], Bit.On))] } : Equations).enumerate_all_results.Pairwise
        (fun a b => a ≠ b))) :=
  ⟨by decide, c5_enumeration_count { free_vars := [0, 2], eqns := [(1, ([0], Bit.On))] } (by decide)⟩

/-- **C7.** Elimination is idempotent: for every valid Bit matrix `M`,
`eliminate(eliminate(M)) = eliminate(M)` — the eliminated matrix is in RREF,
and a valid RREF matrix is a fixed point of the elimination loop. -/
theorem c7_eliminate_idempotent (M : Matrix) (hv : M.Valid) :
    M.eliminate.eliminate = M.eliminate :=
  eliminate_eq_self _ (eliminate_valid M hv) (eliminate_isRREF M hv)

/-- Witness for **C7** on a concrete 3×4 matrix. -/
theorem c7_eliminate_idempotent_witness :
    (⟨3, 4, [[Bit.On, Bit.On, Bit.Off, Bit.On], [Bit.On, Bit.On, Bit.On, Bit.Off],
      [Bit.Off, Bit.On, Bit.On, Bit.On]]⟩ : Matrix).Valid ∧
    (⟨3, 4, [[Bit.On, Bit.On, Bit.Off, Bit.On], [Bit.On, Bit.On, Bit.On, Bit.Off],
      [Bit.Off, Bit.On, Bit.On, Bit.On]]⟩ : Matrix).eliminate.eliminate
      = (⟨3, 4, [[Bit.On, Bit.On, Bit.Off, Bit.On], [Bit.On, Bit.On, Bit.On, Bit.Off],
          [Bit.Off, Bit.On, Bit.On, Bit.On]]⟩ : Matrix).eliminate :=
  ⟨by decide, c7_eliminate_idempotent _ (by decide)⟩

/-- **C8.** For every valid matrix and every bit vector `col`: if `len(col)`
equals the row count, `augment_column` succeeds, appending `col[r]` as the new
last entry of each row `r` and incrementing `cols` by one while leaving all
pre-existing entries unchanged; otherwise it reports failure and leaves the
matrix entirely unchanged. -/
theorem c8_augment_column (m : Matrix) (col : List Bit) (hv : m.Valid) :
    (col.length = m.rows →
      (m.augment_column col).1 = true ∧
      (m.augment_column col).2.rows = m.rows ∧
      (m.augment_column col).2.cols = m.cols + 1 ∧
      ∀ r < m.rows, (m.augment_column col).2.row r = m.row r ++ [col.getD r Bit.Off]) ∧
    (col.length ≠ m.rows → m.augment_column col = (false, m)) := by
  obtain ⟨hv1, hv2, hv3, -⟩ := id hv
  constructor
  · intro hlen
    rw [Matrix.augment_column, if_neg (by omega)]
    refine ⟨rfl, rfl, rfl, ?_⟩
    intro r hr
    have hrd : r < m.data.length := by omega
    have hrc : r < col.length := by omega
    have hrz : r < (m.data.zipWith (fun row b => row ++ [b]) col).length := by
      rw [List.length_zipWith]
      omega
    show (m.data.zipWith (fun row b => row ++ [b]) col).getD r [] = _
    rw [List.getD_eq_getElem _ _ hrz, List.getElem_zipWith, Matrix.row,
      List.getD_eq_getElem _ _ hrd, List.getD_eq_getElem _ _ hrc]
  · intro hlen
    rw [Matrix.augment_column, if_pos hlen]

/-- Witness for **C8**: a matching column is appended, a mismatched one is
rejected without touching the matrix. -/
theorem c8_augment_column_witness :
    (⟨2, 2, [[Bit.On, Bit.Off], [Bit.Off, Bit.On]]⟩ : Matrix).Valid ∧
    (([Bit.On, Bit.Off] : List Bit).length = (2 : Nat) →
      ((⟨2, 2, [[Bit.On, Bit.Off], [Bit.Off, Bit.On]]⟩ : Matrix).augment_column
        [Bit.On, Bit.Off]).1 = true ∧
      ((⟨2, 2, [[Bit.On, Bit.Off], [Bit.Off, Bit.On]]⟩ : Matrix).augment_column
        [Bit.On, Bit.Off]).2.rows = 2 ∧
      ((⟨2, 2, [[Bit.On, Bit.Off], [Bit.Off, Bit.On]]⟩ : Matrix).augment_column
        [Bit.On, Bit.Off]).2.cols = 2 + 1 ∧
      ∀ r < (2 : Nat),
        ((⟨2, 2, [[Bit.On, Bit.Off], [Bit.Off, Bit.On]]⟩ : Matrix).augment_column
          [Bit.On, Bit.Off]).2.row r
          = (⟨2, 2, [[Bit.On, Bit.Off], [Bit.Off, Bit.On]]⟩ : Matrix).row r
              ++ [([Bit.On, Bit.Off] : List Bit).getD r Bit.Off]) ∧
    (([Bit.On, Bit.Off] : List Bit).length ≠ (2 : Nat) →
      (⟨2, 2, [[Bit.On, Bit.Off], [Bit.Off, Bit.On]]⟩ : Matrix).augment_column [Bit.On, Bit.Off]
        = (false, ⟨2, 2, [[Bit.On, Bit.Off], [Bit.Off, Bit.On]]⟩)) :=
  ⟨by decide,
    (c8_augment_column ⟨2, 2, [[Bit.On, Bit.Off], [Bit.Off, Bit.On]]⟩ [Bit.On, Bit.Off]
      (by decide)).1,
    (c8_augment_column ⟨2, 2, [[Bit.On, Bit.Off], [Bit.Off, Bit.On]]⟩ [Bit.On, Bit.Off]
      (by decide)).2⟩

/-- **C9.** `eliminate()` terminates on every valid matrix: the cursor
strictly advances (one column right or one row down) each loop iteration over
a finite grid, so the loop always exits within `rows + cols` iterations — any
fuel beyond that bound is never consumed and leaves the result unchanged. -/
theorem c9_eliminate_terminates (M : Matrix) (hv : M.Valid) :
    ∀ extra, elimLoopF (M.rows + M.cols + extra) M.sortMatrix 0 0 = M.eliminate := by
  intro extra
  obtain ⟨hv1, hv2, hv3, -⟩ := id hv
  rw [Matrix.eliminate]
  exact elimLoopF_fuel_add (M.rows + M.cols) M.sortMatrix 0 0 extra
    (sortMatrix_valid M hv) (by rw [sortMatrix_rows]; omega)
    (by rw [sortMatrix_cols]; omega) (by rw [sortMatrix_rows, sortMatrix_cols]; omega)

/-- Witness for **C9** on a concrete matrix. -/
theorem c9_eliminate_terminates_witness :
    (⟨2, 3, [[Bit.Off, Bit.On, Bit.On], [Bit.On, Bit.On, Bit.Off]]⟩ : Matrix).Valid ∧
    ∀ extra, elimLoopF ((2 : Nat) + 3 + extra)
        (⟨2, 3, [[Bit.Off, Bit.On, Bit.On], [Bit.On, Bit.On, Bit.Off]]⟩ : Matrix).sortMatrix 0 0
      = (⟨2, 3, [[Bit.Off, Bit.On, Bit.On], [Bit.On, Bit.On, Bit.Off]]⟩ : Matrix).eliminate :=
  ⟨by decide,
    c9_eliminate_terminates ⟨2, 3, [[Bit.Off, Bit.On, Bit.On], [Bit.On, Bit.On, Bit.Off]]⟩
      (by decide)⟩

/-- **C10.** Calling `elementary_add_row_to` with `source_row = target_row`
sets every entry of that row to `Off`: the source row is cloned before the
element-wise XOR, so the row is added to its own unmodified copy and
`r + r = 0` over GF(2).  No other row is touched (no aliasing of the
partially-updated row), and the operation is total (no panic) on valid
matrices. -/
theorem c10_elementary_self_zeroes (m : Matrix) (s : Nat) (hv : m.Valid) (hs : s < m.rows) :
    (m.elementary_add_row_to s s).row s = List.replicate m.cols Bit.Off ∧
    ∀ r, r ≠ s → (m.elementary_add_row_to s s).row r = m.row r := by
  obtain ⟨hv1, hv2, hv3, -⟩ := id hv
  constructor
  · rw [elementary_row_target m s s (by omega)]
    apply List.ext_getElem
    · rw [addRows_length, List.length_replicate]
    · intro i hi hi2
      have hic : i < m.cols := by
        rw [addRows_length] at hi
        exact hi
      rw [List.getElem_replicate, ← List.getD_eq_getElem _ Bit.Off hi,
        addRows_getD _ _ hic, Bit.add_self]
  · intro r hr
    exact elementary_row_other m s s r hr

/-- Witness for **C10**: adding row 1 of a concrete 2×3 matrix to itself
zeroes it and leaves row 0 unchanged. -/
theorem c10_elementary_self_zeroes_witness :
    (⟨2, 3, [[Bit.On, Bit.Off, Bit.On], [Bit.On, Bit.On, Bit.Off]]⟩ : Matrix).Valid ∧
    (((⟨2, 3, [[Bit.On, Bit.Off, Bit.On], [Bit.On, Bit.On, Bit.Off]]⟩ : Matrix).elementary_add_row_to
        1 1).row 1 = List.replicate 3 Bit.Off ∧
     ∀ r, r ≠ 1 →
      ((⟨2, 3, [[Bit.On, Bit.Off, Bit.On], [Bit.On, Bit.On, Bit.Off]]⟩ : Matrix).elementary_add_row_to
        1 1).row r
        = (⟨2, 3, [[Bit.On, Bit.Off, Bit.On], [Bit.On, Bit.On, Bit.Off]]⟩ : Matrix).row r) :=
  ⟨by decide,
    c10_elementary_self_zeroes ⟨2, 3, [[Bit.On, Bit.Off, Bit.On], [Bit.On, Bit.On, Bit.Off]]⟩ 1
      (by decide) (by decide)⟩


end Wayout
